import Mathlib

/-!
Verification development for the category-graph construction and rendering
engine of an MkDocs categories plugin (`categories/plugin.py`).

The Python source is shallowly embedded:
  * `self.categories` (an insertion-ordered `dict` from composite key to a
    category node) is modelled as an association list `Store`;
  * `self.pages` (a `dict` from page url to a `set` of category keys) is
    modelled as an association list from url to a duplicate-free list of keys;
  * mutation of a node object held in the dict is modelled by `storeUpdate`
    at the node's map key;
  * fallible Python code (subscripting `None`, attribute errors) is modelled
    with `Option` / `Except`;
  * the two unbounded loops of the source (`get_breadcrumb_keys`'s `while`
    walk and `render_category_hierarchy`'s recursion over the child index)
    are modelled with explicit fuel, returning `none` when the fuel runs out.
-/

/-! ## Slug utility

`slugify` from the source: NFKD-normalize, encode to ASCII dropping
unencodable characters, delete characters that are not word/space/hyphen,
strip, lowercase, and collapse runs of whitespace or hyphens to one hyphen.
NFKD normalization is the identity on the ASCII range; the `encode("ascii",
"ignore")` step is modelled as dropping every non-ASCII character (the claims
exercised here only distinguish behaviour on the ASCII fragment, on which
this model agrees exactly with the source). -/

/-- Characters matched by Python's `\s` (and `str.strip` / `str.isspace`)
within the ASCII range: space (32), tab (9), newline (10), carriage
return (13), vertical tab (11), form feed (12), and the separator control
characters 0x1c-0x1f (28-31). -/
def isPySpace (c : Char) : Bool :=
  c.toNat = 32 || c.toNat = 9 || c.toNat = 10 || c.toNat = 13 ||
    c.toNat = 11 || c.toNat = 12 || (28 ≤ c.toNat && c.toNat ≤ 31)

/-- Characters matched by Python's `\w` within the ASCII range:
`A`-`Z` (65-90), `a`-`z` (97-122), `0`-`9` (48-57) and `_` (95). -/
def isWordChar (c : Char) : Bool :=
  (65 ≤ c.toNat && c.toNat ≤ 90) || (97 ≤ c.toNat && c.toNat ≤ 122) ||
    (48 ≤ c.toNat && c.toNat ≤ 57) || c.toNat = 95

/-- Python `str.lower()` on one character: `A`-`Z` maps to `a`-`z`, every
other character in the ASCII range is unchanged (the inputs fed to it in
this model are always ASCII). -/
def lowerChar (c : Char) : Char :=
  if 65 ≤ c.toNat ∧ c.toNat ≤ 90 then Char.ofNat (c.toNat + 32) else c

/-- A character that the final `re.sub(r"[-\s]+", "-", ...)` treats as a
separator: a hyphen or whitespace. -/
def isSepChar (c : Char) : Bool :=
  c = '-' || isPySpace c

/-- Model of `re.sub(r"[-\s]+", "-", ...)`: every maximal run of separator
characters is replaced by a single hyphen. -/
def collapseSeps : List Char → List Char
  | [] => []
  | c :: rest =>
    if isSepChar c then
      match rest with
      | [] => ['-']
      | d :: _ => if isSepChar d then collapseSeps rest else '-' :: collapseSeps rest
    else c :: collapseSeps rest

/-- Model of Python `str.strip()`: remove leading and trailing whitespace. -/
def stripList (l : List Char) : List Char :=
  ((l.dropWhile isPySpace).reverse.dropWhile isPySpace).reverse

/-- The slug used for a category URL (`slugify` in the source, adapted there
from `django.utils.text`). -/
def slugify (title : String) : String :=
  let ascii := title.data.filter (fun c => c.toNat < 128)
  let kept := ascii.filter (fun c => isWordChar c || isPySpace c || c = '-')
  let lowered := (stripList kept).map lowerChar
  ⟨collapseSeps lowered⟩

/-! ## Natural sorting

Model of the `natsorted` utility used by the renderer (the `natsort`
library with default options): each string is keyed by its decomposition
into alternating non-digit runs and unsigned-integer runs, integer runs
comparing by value, and the sort is a stable ascending sort by that key. -/

/-- One chunk of a natural-sort key: a run of non-digit characters or the
value of a run of digits. -/
inductive NatChunk where
  | str (s : List Char)
  | num (n : Nat)
deriving DecidableEq, Repr

/-- Extend a reversed chunk list by one character. -/
def pushChar (acc : List NatChunk) (c : Char) : List NatChunk :=
  if c.isDigit then
    match acc with
    | NatChunk.num n :: rest => NatChunk.num (n * 10 + (c.toNat - 48)) :: rest
    | _ => NatChunk.num (c.toNat - 48) :: acc
  else
    match acc with
    | NatChunk.str s :: rest => NatChunk.str (s ++ [c]) :: rest
    | _ => NatChunk.str [c] :: acc

/-- Natural-sort key of a string. A leading empty string chunk is added when
the string starts with a digit, so that chunks at equal positions always have
the same shape (as the `natsort` library arranges). -/
def natKey (s : String) : List NatChunk :=
  let l := (s.data.foldl pushChar []).reverse
  match l with
  | NatChunk.num _ :: _ => NatChunk.str [] :: l
  | _ => l

/-- Strict lexicographic comparison of character runs by code point, as
Python compares `str` values. -/
def charListLt : List Char → List Char → Bool
  | _, [] => false
  | [], _ :: _ => true
  | a :: as, b :: bs =>
    if a.toNat < b.toNat then true else if a = b then charListLt as bs else false

/-- Strict comparison of two key chunks. Mixed shapes never occur at equal
positions of two keys; a number is ordered before a string for totality. -/
def chunkLt : NatChunk → NatChunk → Bool
  | NatChunk.str a, NatChunk.str b => charListLt a b
  | NatChunk.num a, NatChunk.num b => a < b
  | NatChunk.num _, NatChunk.str _ => true
  | NatChunk.str _, NatChunk.num _ => false

/-- Strict lexicographic comparison of whole keys, as Python compares the
key tuples. -/
def natKeyLt : List NatChunk → List NatChunk → Bool
  | _, [] => false
  | [], _ :: _ => true
  | a :: as, b :: bs => if chunkLt a b then true else if a = b then natKeyLt as bs else false

/-- Insert `x` after every element `y` of an already sorted list with
`le y x`; the kernel of a stable insertion sort. -/
def insertLe (le : α → α → Bool) (x : α) : List α → List α
  | [] => [x]
  | y :: ys => if le y x then y :: insertLe le x ys else x :: y :: ys

/-- Stable insertion sort: elements are inserted left to right, each going
after all previously placed elements that are not strictly greater. -/
def sortLe (le : α → α → Bool) (l : List α) : List α :=
  l.foldl (fun acc x => insertLe le x acc) []

/-- Model of `natsorted(seq, key=f)`: stable ascending sort by the natural
key of `f`. -/
def natsortedBy (f : α → String) (l : List α) : List α :=
  sortLe (fun a b => !natKeyLt (natKey (f b)) (natKey (f a))) l

/-! ## Data model

One category node, mirroring the dict literal built in `ensure_path`. -/

/-- A page reference attached to a category (`{"title": ..., "url": ...}`). -/
structure PageRef where
  title : String
  url : String
deriving DecidableEq, Repr

/-- A category node (`self.categories[cat_key]` in the source). -/
structure CategoryNode where
  name : String
  key : String
  slug : String
  pages : List PageRef
  parent : Option String
  children : List String
deriving DecidableEq, Repr

/-- The category dict `self.categories`, as an insertion-ordered association
list from composite key to node. -/
abbrev Store := List (String × CategoryNode)

/-- The page index `self.pages`, as an insertion-ordered association list
from page url to the (duplicate-free) list of category keys of the page. -/
abbrev PageIndex := List (String × List String)

/-- Dictionary lookup in the category store. -/
def storeFind : Store → String → Option CategoryNode
  | [], _ => none
  | (k, n) :: rest, k2 => if k = k2 then some n else storeFind rest k2

/-- Key membership (`cat_key in self.categories`). -/
def present (s : Store) (k : String) : Bool :=
  (storeFind s k).isSome

/-- In-place mutation of the node object stored at a key. -/
def storeUpdate : Store → String → (CategoryNode → CategoryNode) → Store
  | [], _, _ => []
  | (k, n) :: rest, k2, f =>
    if k = k2 then (k, f n) :: storeUpdate rest k2 f
    else (k, n) :: storeUpdate rest k2 f

/-- The keys of the store in insertion order. -/
def storeKeys (s : Store) : List String :=
  s.map Prod.fst

/-- The `children` list of the node at a key (`[]` when the key is absent). -/
def childrenOf (s : Store) (k : String) : List String :=
  match storeFind s k with
  | some n => n.children
  | none => []

/-- The `pages` list of the node at a key (`[]` when the key is absent). -/
def pagesOf (s : Store) (k : String) : List PageRef :=
  match storeFind s k with
  | some n => n.pages
  | none => []

/-- Lookup in the page index. -/
def indexFind : PageIndex → String → Option (List String)
  | [], _ => none
  | (u, ks) :: rest, u2 => if u = u2 then some ks else indexFind rest u2

/-- Model of `self.pages.setdefault`-style insertion followed by
`set.add`: ensure the url has an entry, then add the key if absent. -/
def pageIndexAdd (pi : PageIndex) (url key : String) : PageIndex :=
  match indexFind pi url with
  | none => pi ++ [(url, [key])]
  | some _ =>
    pi.map (fun p =>
      if p.1 = url then (p.1, if key ∈ p.2 then p.2 else p.2 ++ [key]) else p)

/-! ## Category graph store operations -/

/-- Composite key of a path: `"-".join(segments)`. -/
def joinKey : List String → String
  | [] => ""
  | [s] => s
  | s :: rest => s ++ "-" ++ joinKey rest

/-- The fresh node created by `ensure_path` at segment `seg` after already
processed segments `acc`. -/
def mkNode (acc : List String) (seg : String) : CategoryNode :=
  { name := seg
    key := joinKey (acc ++ [seg])
    slug := slugify (joinKey (acc ++ [seg]))
    pages := []
    parent := if acc.isEmpty then none else some (joinKey acc)
    children := [] }

/-- First half of one `ensure_path` loop iteration: when the key of
`acc ++ [seg]` is not yet in the dict, insert a fresh node for it. -/
def insertPhase (s : Store) (acc : List String) (seg : String) : Store :=
  if present s (joinKey (acc ++ [seg])) then s
  else s ++ [(joinKey (acc ++ [seg]), mkNode acc seg)]

/-- Second half of one loop iteration: when a previous node exists (`len
(result) > 0`) and `catKey` is not yet among its children, append it. The
previous node is the object stored at map key `pk`. -/
def linkPhase (s1 : Store) (catKey : String) : Option String → Store
  | none => s1
  | some pk =>
    match storeFind s1 pk with
    | none => s1
    | some r =>
      if catKey ∈ r.children then s1
      else storeUpdate s1 pk (fun n => { n with children := n.children ++ [catKey] })

/-- One iteration of the loop in `ensure_path`: insert the node for the key
of `acc ++ [seg]` when missing, then (when this is not the first segment)
register that key as a child of the previous node when not already present.
`prevKey` is the map key of the node held in the loop's `result` variable. -/
def ensureStep (s : Store) (acc : List String) (prevKey : Option String) (seg : String) :
    Store :=
  linkPhase (insertPhase s acc seg) (joinKey (acc ++ [seg])) prevKey

/-- The loop of `ensure_path`, returning the final store and the map key of
the last processed node (the loop's `result`). -/
def ensurePathLoop (s : Store) (acc : List String) (prevKey : Option String) :
    List String → Store × Option String
  | [] => (s, prevKey)
  | seg :: rest =>
    ensurePathLoop (ensureStep s acc prevKey seg) (acc ++ [seg])
      (some (joinKey (acc ++ [seg]))) rest

/-- `ensure_path`: ensure every prefix of the path has a node and return the
node of the deepest segment (`None` for an empty path). -/
def ensure_path (s : Store) (cat_path : List String) : Store × Option CategoryNode :=
  if cat_path.length ≤ 0 then (s, none)
  else
    ((ensurePathLoop s [] none cat_path).1,
     match (ensurePathLoop s [] none cat_path).2 with
     | none => none
     | some k => storeFind (ensurePathLoop s [] none cat_path).1 k)

/-- `register_page`: ensure the category path, append a `{title, url}` entry
to the resulting node's `pages` (mutating the object held in the dict, hence
the update at the node's map key), and record the node's `key` field for the
url in the page index. `none` models the `TypeError` Python raises when
`ensure_path` returned `None` (empty path) and the source subscripts it. -/
def register_page (s : Store) (pi : PageIndex) (cat_path : List String)
    (page_url page_title : String) : Option (Store × PageIndex) :=
  if cat_path.length ≤ 0 then none
  else
    match (ensurePathLoop s [] none cat_path).2 with
    | none => none
    | some mapKey =>
      match storeFind (ensurePathLoop s [] none cat_path).1 mapKey with
      | none => none
      | some category =>
        some (storeUpdate (ensurePathLoop s [] none cat_path).1 mapKey
                (fun n => { n with pages := n.pages ++ [⟨page_title, page_url⟩] }),
              pageIndexAdd pi page_url category.key)

/-! ## Breadcrumb lineage -/

/-- The `while` loop of `get_breadcrumb_keys`, with explicit fuel: follow
`parent` links while the current key is not `None` and is in the store,
collecting keys. `none` models non-termination within the given fuel. -/
def breadcrumbGo (s : Store) : Nat → Option String → List String → Option (List String)
  | fuel, currentKey, lineage =>
    match currentKey with
    | none => some lineage
    | some k =>
      match storeFind s k with
      | none => some lineage
      | some n =>
        match fuel with
        | 0 => none
        | fuel2 + 1 => breadcrumbGo s fuel2 n.parent (lineage ++ [k])

/-- `get_breadcrumb_keys`: lineage keys from root to the given category.
The walk visits strictly shorter keys at every step on any store built by
this plugin, so `key.length + 1` steps of fuel always suffice there. -/
def get_breadcrumb_keys (s : Store) (category_key : String) : Option (List String) :=
  (breadcrumbGo s (category_key.length + 1) (some category_key) []).map List.reverse

/-! ## Rendering -/

/-- `get_category_by_parent`: linear scan of the store's values filtering by
parent key. -/
def get_category_by_parent (s : Store) (parent_key : Option String) : List CategoryNode :=
  (s.map Prod.snd).filter (fun c => c.parent == parent_key)

/-- Indentation of `indent_level` levels (four spaces each). -/
def indentSpaces : Nat → String
  | 0 => ""
  | n + 1 => "    " ++ indentSpaces n

/-- One line of the hierarchy listing: indentation, a link to the category
document, and the direct page count. -/
def renderHierLine (indent_level : Nat) (c : CategoryNode) : String :=
  indentSpaces indent_level ++ "- " ++ "[" ++ c.name ++ "](./" ++ c.slug ++ ".md)" ++
    " (" ++ toString c.pages.length ++ ")"

/-- `render_category_hierarchy` with explicit fuel bounding recursion depth:
render the children of `parent_key` sorted naturally by display name, each
followed by its recursively rendered subtree, one extra indent level per
depth. `none` models recursion deeper than the fuel. -/
def render_category_hierarchy (s : Store) :
    Nat → Option String → Nat → Option (List String)
  | 0, _, _ => none
  | fuel + 1, parent_key, indent_level =>
    (natsortedBy (fun c => c.name) (get_category_by_parent s parent_key)).foldlM
      (fun lines c =>
        (render_category_hierarchy s fuel (some c.key) (indent_level + 1)).map
          (fun sub => lines ++ [renderHierLine indent_level c] ++ sub))
      []

/-- The hierarchy rendering as invoked by `generate_index`: roots at indent
level `0`, with enough fuel for every store whose parent links are acyclic. -/
def renderHierarchyTop (s : Store) : Option (List String) :=
  render_category_hierarchy s (s.length + 1) none 0

/-- `render_category_pages`: `(False, None)` when the category has no pages,
otherwise `(True, joined)` where `joined` lists the pages natural-sorted by
title, one markdown link per line. -/
def render_category_pages (category : CategoryNode) : Bool × Option String :=
  if category.pages.length ≤ 0 then (false, none)
  else
    (true,
     some (String.intercalate "\n"
       ((natsortedBy (fun p => p.title) category.pages).map
         (fun p => "- " ++ "[" ++ p.title ++ "](../" ++ p.url ++ ")"))))

/-! ## Navigation pruning -/

/-- A navigation item as far as `on_nav` observes it: whether it is a
section, and its title (already passed through `str`). -/
structure NavItem where
  is_section : Bool
  title : String
deriving DecidableEq, Repr

/-- Python `str.lower()`, modelled characterwise on the ASCII range. -/
def pyLower (s : String) : String :=
  ⟨s.data.map lowerChar⟩

/-- The loop of `on_nav`: remove the first section whose lowercased title
equals the configured base name, leave everything else alone. -/
def removeFirstMatch (base_name : String) : List NavItem → List NavItem
  | [] => []
  | item :: rest =>
    if item.is_section ∧ pyLower item.title = base_name then rest
    else item :: removeFirstMatch base_name rest

/-- `on_nav`: when `no_nav` is unset the navigation is returned unchanged;
otherwise the first matching section is removed (the loop `break`s after the
first removal). -/
def on_nav (no_nav : Bool) (base_name : String) (nav : List NavItem) : List NavItem :=
  if !no_nav then nav else removeFirstMatch base_name nav

/-! ## Metadata scanner

`define_categories` iterates the documentation pages, reads each page's
metadata (the front-matter extraction `meta.get_data` and the H1 title
extraction `get_markdown_title` are host utilities; their results are
modelled as data carried by each file entry), and registers the page under
every declared category path. -/

/-- A metadata value as produced by the host's front-matter parser: plain
YAML data. -/
inductive MetaVal where
  | str (s : String)
  | int (n : Int)
  | bool (b : Bool)
  | null
  | list (l : List MetaVal)

/-- A single quote character, used by Python `repr` of strings. -/
def singleQuote : String :=
  ⟨[Char.ofNat 39]⟩

mutual
/-- Python `repr` of a metadata value (string escaping is not modelled; no
claim evaluates it on strings needing escapes). -/
def pyRepr : MetaVal → String
  | MetaVal.str s => singleQuote ++ s ++ singleQuote
  | MetaVal.int n => toString n
  | MetaVal.bool b => if b then "True" else "False"
  | MetaVal.null => "None"
  | MetaVal.list l => "[" ++ pyReprList l ++ "]"

/-- Comma-joined `repr`s of the elements of a list value. -/
def pyReprList : List MetaVal → String
  | [] => ""
  | [x] => pyRepr x
  | x :: rest => pyRepr x ++ ", " ++ pyReprList rest
end

/-- Python `str` of a metadata value. -/
def pyStr : MetaVal → String
  | MetaVal.str s => s
  | v => pyRepr v

/-- Attribute lookup of `__name__` on a metadata value. YAML front matter
yields plain data values (`str`, `int`, `bool`, `None`, `list`, `dict`),
none of which has a `__name__` attribute, so the lookup fails uniformly. -/
def dunderName : MetaVal → Option String :=
  fun _ => none

/-- Python `str.split` with the (single-character, per the plugin's
documented contract) category separator: never returns an empty list. -/
def splitCharAux (sep : Char) : List Char → List Char → List String
  | [], cur => [⟨cur.reverse⟩]
  | c :: rest, cur =>
    if c = sep then ⟨cur.reverse⟩ :: splitCharAux sep rest []
    else splitCharAux sep rest (c :: cur)

/-- Split a string on every occurrence of a separator character. -/
def splitChar (sep : Char) (s : String) : List String :=
  splitCharAux sep s.data []

/-- A documentation file entry as `define_categories` observes it: the
documentation-page flag, the source path used as the page identifier, the
parsed front-matter mapping, and the result of the host's markdown H1 title
extraction on the page body. -/
structure MetaFile where
  is_documentation_page : Bool
  src_path : String
  meta_data : List (String × MetaVal)
  markdown_title : Option String

/-- Lookup of a key in a parsed front-matter mapping. -/
def metaFind : List (String × MetaVal) → String → Option MetaVal
  | [], _ => none
  | (k, v) :: rest, k2 => if k = k2 then some v else metaFind rest k2

/-- `get_page_title`: a textual `title` metadata field wins, otherwise the
markdown H1 title, otherwise the empty string. -/
def get_page_title (markdownTitle : Option String) (meta_data : List (String × MetaVal)) :
    String :=
  match metaFind meta_data "title" with
  | some (MetaVal.str t) => t
  | _ =>
    match markdownTitle with
    | some t => t
    | none => ""

/-- An error aborting the metadata scan, propagating out of the plugin. -/
inductive PyError where
  | attributeError (atFile : String)
  | typeError (atFile : String)
deriving DecidableEq, Repr

/-- `define_categories`: for every documentation page with a `categories`
metadata key, register the page under each declared category path (the path
split on the separator). When the value is not a list the source evaluates
`meta_data["categories"].__name__` while building its error-log message;
on YAML data that attribute lookup raises `AttributeError`, which aborts the
scan. -/
def define_categories (sep : Char) (st : Store × PageIndex) (files : List MetaFile) :
    Except PyError (Store × PageIndex) :=
  files.foldlM
    (fun acc file =>
      if !file.is_documentation_page then Except.ok acc
      else if file.meta_data.length ≤ 0 then Except.ok acc
      else
        match metaFind file.meta_data "categories" with
        | none => Except.ok acc
        | some (MetaVal.list cats) =>
          cats.foldlM
            (fun acc2 category =>
              match register_page acc2.1 acc2.2 (splitChar sep (pyStr category))
                  file.src_path (get_page_title file.markdown_title file.meta_data) with
              | some st2 => Except.ok st2
              | none => Except.error (PyError.typeError file.src_path))
            acc
        | some v =>
          match dunderName v with
          | some _ => Except.ok acc
          | none => Except.error (PyError.attributeError file.src_path))
    st

/-! ## Build-time operation sequences

The store and page index are mutated during one build only through
`ensure_path` and `register_page`; a reachable state is the result of running
a list of such operations from the empty state. -/

/-- One store operation of the scan phase. -/
inductive Op where
  | ensure (path : List String)
  | register (path : List String) (url : String) (title : String)
deriving DecidableEq, Repr

/-- Run one operation; `none` models an exception. -/
def runOp : Store × PageIndex → Op → Option (Store × PageIndex)
  | (s, pi), Op.ensure p => some ((ensure_path s p).1, pi)
  | (s, pi), Op.register p u t => register_page s pi p u t

/-- Run a sequence of operations from a given state. -/
def runOpsFrom (st : Store × PageIndex) (ops : List Op) : Option (Store × PageIndex) :=
  ops.foldlM runOp st

/-- Run a sequence of operations from the fresh (empty) build state. -/
def runOps (ops : List Op) : Option (Store × PageIndex) :=
  runOpsFrom ([], []) ops

/-! ## Basic lemmas about the store -/

theorem storeFind_nil (k : String) : storeFind [] k = none := rfl

theorem storeFind_append_of_isSome {s : Store} {k : String}
    (h : (storeFind s k).isSome) (t : Store) :
    storeFind (s ++ t) k = storeFind s k := by
  induction s with
  | nil => simp [storeFind] at h
  | cons e rest ih =>
    obtain ⟨ek, en⟩ := e
    by_cases hk : ek = k
    · simp [storeFind, hk]
    · simp only [storeFind, if_neg hk] at h ⊢
      exact ih h

theorem storeFind_append_of_none {s : Store} {k : String}
    (h : storeFind s k = none) (t : Store) :
    storeFind (s ++ t) k = storeFind t k := by
  induction s with
  | nil => rfl
  | cons e rest ih =>
    obtain ⟨ek, en⟩ := e
    by_cases hk : ek = k
    · simp [storeFind, hk] at h
    · simp only [storeFind, if_neg hk] at h ⊢
      exact ih h

theorem storeFind_update (s : Store) (k : String) (f : CategoryNode → CategoryNode)
    (k2 : String) :
    storeFind (storeUpdate s k f) k2 =
      if k2 = k then (storeFind s k2).map f else storeFind s k2 := by
  induction s with
  | nil => simp [storeUpdate, storeFind]
  | cons e rest ih =>
    obtain ⟨ek, en⟩ := e
    by_cases hek : ek = k <;> by_cases hk2 : ek = k2
    · subst hek; subst hk2
      simp [storeUpdate, storeFind]
    · subst hek
      have : ¬ k2 = ek := fun h => hk2 h.symm
      simp [storeUpdate, storeFind, hk2, this, ih]
    · subst hk2
      simp [storeUpdate, storeFind, hek, ih]
    · simp [storeUpdate, storeFind, hek, hk2, ih]

theorem storeKeys_update (s : Store) (k : String) (f : CategoryNode → CategoryNode) :
    storeKeys (storeUpdate s k f) = storeKeys s := by
  induction s with
  | nil => rfl
  | cons e rest ih =>
    obtain ⟨ek, en⟩ := e
    by_cases hek : ek = k <;> simp [storeUpdate, storeKeys, hek] <;>
      simpa [storeKeys] using ih

theorem storeKeys_append (s t : Store) : storeKeys (s ++ t) = storeKeys s ++ storeKeys t :=
  List.map_append _ _ _

theorem present_iff_mem {s : Store} {k : String} :
    present s k = true ↔ k ∈ storeKeys s := by
  induction s with
  | nil => simp [present, storeFind, storeKeys]
  | cons e rest ih =>
    obtain ⟨ek, en⟩ := e
    by_cases hk : ek = k
    · subst hk; simp [present, storeFind, storeKeys]
    · simp only [present, storeFind, if_neg hk, storeKeys, List.map_cons, List.mem_cons]
      rw [show ((storeFind rest k).isSome = true ↔ k ∈ List.map Prod.fst rest) from ih]
      constructor
      · exact fun h => Or.inr h
      · rintro (h | h)
        · exact absurd h.symm hk
        · exact h

theorem present_update (s : Store) (k : String) (f : CategoryNode → CategoryNode)
    (k2 : String) : present (storeUpdate s k f) k2 = present s k2 := by
  unfold present
  rw [storeFind_update]
  by_cases h : k2 = k <;> simp [h]

/-! ## Basic lemmas about composite keys -/

theorem joinKey_snoc (l : List String) (x : String) :
    joinKey (l ++ [x]) = if l.isEmpty then x else joinKey l ++ "-" ++ x := by
  induction l with
  | nil => rfl
  | cons a l ih =>
    cases l with
    | nil => rfl
    | cons b l2 =>
      have h1 : joinKey ((a :: b :: l2) ++ [x]) = a ++ "-" ++ joinKey ((b :: l2) ++ [x]) := rfl
      have h2 : joinKey (a :: b :: l2) = a ++ "-" ++ joinKey (b :: l2) := rfl
      rw [h1, ih, h2]
      simp [String.append_assoc]

theorem joinKey_snoc_ne (l : List String) (x : String) (h : l ≠ []) :
    joinKey (l ++ [x]) = joinKey l ++ "-" ++ x := by
  rw [joinKey_snoc]
  simp [List.isEmpty_iff, h]

theorem length_joinKey_snoc (l : List String) (x : String) (h : l ≠ []) :
    (joinKey (l ++ [x])).length = (joinKey l).length + 1 + x.length := by
  rw [joinKey_snoc_ne l x h]
  have hd : ("-" : String).length = 1 := rfl
  simp [String.length_append, hd]

theorem length_joinKey_lt_snoc (l : List String) (x : String) (h : l ≠ []) :
    (joinKey l).length < (joinKey (l ++ [x])).length := by
  rw [length_joinKey_snoc l x h]
  omega

/-! ## Lemmas about one `ensure_path` iteration -/

/-- How a node can evolve across store operations within one build: every
field is preserved except `children`, which only ever grows at the end. -/
def NodeLe (n n2 : CategoryNode) : Prop :=
  n2.name = n.name ∧ n2.key = n.key ∧ n2.slug = n.slug ∧ n2.parent = n.parent ∧
    n2.pages = n.pages ∧ ∃ t, n2.children = n.children ++ t

theorem NodeLe.refl (n : CategoryNode) : NodeLe n n :=
  ⟨rfl, rfl, rfl, rfl, rfl, [], by simp⟩

theorem NodeLe.trans {a b c : CategoryNode} (h1 : NodeLe a b) (h2 : NodeLe b c) :
    NodeLe a c := by
  obtain ⟨e1, e2, e3, e4, e5, t1, ht1⟩ := h1
  obtain ⟨f1, f2, f3, f4, f5, t2, ht2⟩ := h2
  refine ⟨by rw [f1, e1], by rw [f2, e2], by rw [f3, e3], by rw [f4, e4],
    by rw [f5, e5], t1 ++ t2, ?_⟩
  rw [ht2, ht1, List.append_assoc]

theorem insertPhase_find_of_isSome {s : Store} {acc : List String} {seg : String}
    {k : String} {n : CategoryNode} (h : storeFind s k = some n) :
    storeFind (insertPhase s acc seg) k = some n := by
  unfold insertPhase
  by_cases hp : present s (joinKey (acc ++ [seg]))
  · simp only [hp, if_true]; exact h
  · simp only [hp, Bool.false_eq_true, if_false]
    rw [storeFind_append_of_isSome (by simp [h])]
    exact h


theorem insertPhase_find_of_ne {s : Store} (acc : List String) (seg : String) {k : String}
    (h : k ≠ joinKey (acc ++ [seg])) :
    storeFind (insertPhase s acc seg) k = storeFind s k := by
  unfold insertPhase
  by_cases hp : present s (joinKey (acc ++ [seg]))
  · simp [hp]
  · simp only [hp, Bool.false_eq_true, if_false]
    cases hfind : storeFind s k with
    | some n => rw [storeFind_append_of_isSome (by simp [hfind])]; exact hfind
    | none =>
      rw [storeFind_append_of_none hfind]
      have h2 : ¬ joinKey (acc ++ [seg]) = k := fun hh => h hh.symm
      simp [storeFind, h2]

theorem insertPhase_find_new {s : Store} {acc : List String} {seg : String}
    (h : storeFind s (joinKey (acc ++ [seg])) = none) :
    storeFind (insertPhase s acc seg) (joinKey (acc ++ [seg])) = some (mkNode acc seg) := by
  unfold insertPhase
  have hp : present s (joinKey (acc ++ [seg])) = false := by simp [present, h]
  simp only [hp, Bool.false_eq_true, if_false]
  rw [storeFind_append_of_none h]
  simp [storeFind]

theorem insertPhase_present_new (s : Store) (acc : List String) (seg : String) :
    present (insertPhase s acc seg) (joinKey (acc ++ [seg])) = true := by
  by_cases hp : present s (joinKey (acc ++ [seg]))
  · unfold insertPhase
    simp [hp]
  · have hn : storeFind s (joinKey (acc ++ [seg])) = none := by
      simpa [present, Option.isSome_iff_ne_none] using hp
    unfold present
    rw [insertPhase_find_new hn]
    rfl

theorem insertPhase_find_cases {s : Store} {acc : List String} {seg : String} {k : String}
    {n1 : CategoryNode} (h : storeFind (insertPhase s acc seg) k = some n1) :
    storeFind s k = some n1 ∨
      (storeFind s k = none ∧ k = joinKey (acc ++ [seg]) ∧ n1 = mkNode acc seg) := by
  by_cases hk : k = joinKey (acc ++ [seg])
  · cases hfind : storeFind s k with
    | some n =>
      left
      rw [insertPhase_find_of_isSome hfind] at h
      exact h
    | none =>
      right
      subst hk
      rw [insertPhase_find_new hfind] at h
      exact ⟨rfl, rfl, (Option.some.inj h).symm⟩
  · left
    rw [insertPhase_find_of_ne acc seg hk] at h
    exact h

theorem linkPhase_some_eq (s1 : Store) (ck pk : String) :
    linkPhase s1 ck (some pk) =
      match storeFind s1 pk with
      | none => s1
      | some r =>
        if ck ∈ r.children then s1
        else storeUpdate s1 pk (fun n => { n with children := n.children ++ [ck] }) := rfl

theorem linkPhase_find_cases (s1 : Store) (ck : String) (pk? : Option String) (k : String) :
    storeFind (linkPhase s1 ck pk?) k = storeFind s1 k ∨
      (pk? = some k ∧ ∃ r, storeFind s1 k = some r ∧
        storeFind (linkPhase s1 ck pk?) k = some { r with children := r.children ++ [ck] }) := by
  cases pk? with
  | none => exact Or.inl rfl
  | some pk =>
    rw [linkPhase_some_eq]
    cases hf : storeFind s1 pk with
    | none => exact Or.inl rfl
    | some r =>
      by_cases hm : ck ∈ r.children
      · simp only [hm, if_true]
        exact Or.inl trivial
      · simp only [hm, if_false]
        rw [storeFind_update]
        by_cases hk : k = pk
        · subst hk
          right
          refine ⟨rfl, r, hf, ?_⟩
          rw [hf]
          simp
        · left
          simp [hk]

theorem linkPhase_find_mono {s1 : Store} {ck : String} {pk? : Option String} {k : String}
    {n : CategoryNode} (h : storeFind s1 k = some n) :
    ∃ n2, storeFind (linkPhase s1 ck pk?) k = some n2 ∧ NodeLe n n2 := by
  rcases linkPhase_find_cases s1 ck pk? k with hsame | ⟨_, r, hr, hres⟩
  · exact ⟨n, by rw [hsame, h], NodeLe.refl n⟩
  · have hnr : n = r := Option.some.inj (h.symm.trans hr)
    subst hnr
    exact ⟨{ n with children := n.children ++ [ck] }, hres,
      ⟨rfl, rfl, rfl, rfl, rfl, [ck], rfl⟩⟩

theorem ensureStep_find_mono {s : Store} {a : List String} {q : Option String}
    {g : String} {k : String} {n : CategoryNode} (h : storeFind s k = some n) :
    ∃ n2, storeFind (ensureStep s a q g) k = some n2 ∧ NodeLe n n2 := by
  unfold ensureStep
  exact linkPhase_find_mono (insertPhase_find_of_isSome h)

theorem ensureStep_present_mono {s : Store} {acc : List String} {pk? : Option String}
    {seg : String} {k : String} (h : present s k = true) :
    present (ensureStep s acc pk? seg) k = true := by
  unfold present at h
  cases hf : storeFind s k with
  | none => rw [hf] at h; cases h
  | some n =>
    obtain ⟨n2, h2, _⟩ := ensureStep_find_mono (a := acc) (q := pk?) (g := seg) hf
    unfold present
    rw [h2]
    rfl

theorem ensureStep_children_mono {s : Store} {acc : List String} {pk? : Option String}
    {seg : String} {k c : String} (h : c ∈ childrenOf s k) :
    c ∈ childrenOf (ensureStep s acc pk? seg) k := by
  unfold childrenOf at h
  cases hf : storeFind s k with
  | none => rw [hf] at h; cases h
  | some n =>
    rw [hf] at h
    have h3 : c ∈ n.children := h
    obtain ⟨n2, h2, hle⟩ := ensureStep_find_mono (a := acc) (q := pk?) (g := seg) hf
    obtain ⟨_, _, _, _, _, t, ht⟩ := hle
    unfold childrenOf
    rw [h2]
    show c ∈ n2.children
    rw [ht]
    exact List.mem_append_left t h3

theorem linkPhase_pagesOf (s1 : Store) (ck : String) (pk? : Option String) (k : String) :
    pagesOf (linkPhase s1 ck pk?) k = pagesOf s1 k := by
  rcases linkPhase_find_cases s1 ck pk? k with hsame | ⟨_, r, hr, hres⟩
  · unfold pagesOf; rw [hsame]
  · unfold pagesOf; rw [hres, hr]

theorem insertPhase_pagesOf (s : Store) (acc : List String) (seg : String) (k : String) :
    pagesOf (insertPhase s acc seg) k = pagesOf s k := by
  cases hf : storeFind s k with
  | some n => unfold pagesOf; rw [insertPhase_find_of_isSome hf, hf]
  | none =>
    by_cases hk : k = joinKey (acc ++ [seg])
    · subst hk
      cases hf2 : storeFind (insertPhase s acc seg) (joinKey (acc ++ [seg])) with
      | none => unfold pagesOf; rw [hf2, hf]
      | some n1 =>
        rcases insertPhase_find_cases hf2 with hc | ⟨_, _, hn1⟩
        · rw [hf] at hc; cases hc
        · unfold pagesOf
          rw [hf2, hf, hn1]
          rfl
    · unfold pagesOf
      rw [insertPhase_find_of_ne acc seg hk, hf]

theorem ensureStep_pagesOf (s : Store) (acc : List String) (pk? : Option String)
    (seg : String) (k : String) :
    pagesOf (ensureStep s acc pk? seg) k = pagesOf s k := by
  unfold ensureStep
  rw [linkPhase_pagesOf, insertPhase_pagesOf]

theorem linkPhase_present (s1 : Store) (ck : String) (pk? : Option String) (k : String) :
    present (linkPhase s1 ck pk?) k = present s1 k := by
  rcases linkPhase_find_cases s1 ck pk? k with hsame | ⟨_, r, hr, hres⟩
  · unfold present; rw [hsame]
  · unfold present; rw [hres, hr]; rfl

theorem ensureStep_present_new (s : Store) (acc : List String) (pk? : Option String)
    (seg : String) :
    present (ensureStep s acc pk? seg) (joinKey (acc ++ [seg])) = true := by
  unfold ensureStep
  rw [linkPhase_present]
  exact insertPhase_present_new s acc seg

theorem joinKey_ne_snoc {acc : List String} (seg : String) (hacc : acc ≠ []) :
    joinKey acc ≠ joinKey (acc ++ [seg]) := by
  intro hh
  have hlt := length_joinKey_lt_snoc acc seg hacc
  rw [hh] at hlt
  exact lt_irrefl _ hlt

theorem ensureStep_link {s : Store} {acc : List String} (seg : String)
    (hacc : acc ≠ []) (hp : present s (joinKey acc) = true) :
    joinKey (acc ++ [seg]) ∈
      childrenOf (ensureStep s acc (some (joinKey acc)) seg) (joinKey acc) := by
  unfold ensureStep
  obtain ⟨r, hr⟩ : ∃ r, storeFind (insertPhase s acc seg) (joinKey acc) = some r := by
    rw [insertPhase_find_of_ne acc seg (joinKey_ne_snoc seg hacc)]
    exact Option.isSome_iff_exists.mp hp
  rw [linkPhase_some_eq, hr]
  by_cases hm : joinKey (acc ++ [seg]) ∈ r.children
  · simp only [hm, if_true]
    unfold childrenOf
    rw [hr]
    exact hm
  · simp only [hm, if_false]
    unfold childrenOf
    rw [storeFind_update]
    simp only [if_pos rfl, hr]
    simp

/-! ## Well-formedness invariants of the store -/

/-- Every stored node records its own map key in its `key` field. -/
def KeysConsistent (s : Store) : Prop :=
  ∀ k n, storeFind s k = some n → n.key = k

/-- Every stored node's parent key is itself a key of the store. -/
def ParentClosed (s : Store) : Prop :=
  ∀ k n p, storeFind s k = some n → n.parent = some p → present s p = true

/-- Every stored node's parent key is strictly shorter than its own key
(which makes the parent walk terminate). -/
def ParentShorter (s : Store) : Prop :=
  ∀ k n p, storeFind s k = some n → n.parent = some p → p.length < k.length

/-- The store invariants that hold in every reachable build state. -/
def StoreWF (s : Store) : Prop :=
  KeysConsistent s ∧ ParentClosed s ∧ ParentShorter s

theorem storeWF_nil : StoreWF [] := by
  refine ⟨?_, ?_, ?_⟩
  · intro k n h
    cases h
  · intro k n p h hp
    cases h
  · intro k n p h hp
    cases h

theorem ensureStep_find_back {s : Store} {acc : List String} {pk? : Option String}
    {seg : String} {k : String} {n2 : CategoryNode}
    (h : storeFind (ensureStep s acc pk? seg) k = some n2) :
    (∃ n, storeFind s k = some n ∧ n2.key = n.key ∧ n2.parent = n.parent) ∨
      (storeFind s k = none ∧ k = joinKey (acc ++ [seg]) ∧
        n2.key = joinKey (acc ++ [seg]) ∧
        n2.parent = (if acc.isEmpty then none else some (joinKey acc))) := by
  unfold ensureStep at h
  rcases linkPhase_find_cases (insertPhase s acc seg) (joinKey (acc ++ [seg])) pk? k with
    hsame | ⟨_, r, hr, hres⟩
  · rw [hsame] at h
    rcases insertPhase_find_cases h with hc | ⟨hn, hk, hmk⟩
    · exact Or.inl ⟨n2, hc, rfl, rfl⟩
    · right
      refine ⟨hn, hk, ?_, ?_⟩ <;> rw [hmk] <;> rfl
  · have hn2 : n2 = { r with children := r.children ++ [joinKey (acc ++ [seg])] } :=
      Option.some.inj (h.symm.trans hres)
    rcases insertPhase_find_cases hr with hc | ⟨hn, hk, hmk⟩
    · exact Or.inl ⟨r, hc, by rw [hn2], by rw [hn2]⟩
    · right
      refine ⟨hn, hk, ?_, ?_⟩ <;> rw [hn2, hmk] <;> rfl

theorem ensureStep_WF {s : Store} {acc : List String} {pk? : Option String} {seg : String}
    (hwf : StoreWF s) (hacc : acc = [] ∨ present s (joinKey acc) = true) :
    StoreWF (ensureStep s acc pk? seg) := by
  obtain ⟨hkc, hpc, hps⟩ := hwf
  refine ⟨?_, ?_, ?_⟩
  · intro k n h
    rcases ensureStep_find_back h with ⟨n0, hf, hkey, _⟩ | ⟨_, hk, hkey, _⟩
    · rw [hkey]; exact hkc k n0 hf
    · rw [hkey, hk]
  · intro k n p h hp
    rcases ensureStep_find_back h with ⟨n0, hf, _, hpar⟩ | ⟨_, _, _, hpar⟩
    · rw [hpar] at hp
      exact ensureStep_present_mono (hpc k n0 p hf hp)
    · rw [hpar] at hp
      by_cases he : acc.isEmpty
      · rw [if_pos he] at hp; cases hp
      · rw [if_neg he] at hp
        have hpj : p = joinKey acc := (Option.some.inj hp).symm
        subst hpj
        rcases hacc with h1 | h1
        · exact absurd (by rw [h1]; rfl) he
        · exact ensureStep_present_mono h1
  · intro k n p h hp
    rcases ensureStep_find_back h with ⟨n0, hf, _, hpar⟩ | ⟨_, hk, _, hpar⟩
    · rw [hpar] at hp
      exact hps k n0 p hf hp
    · rw [hpar] at hp
      by_cases he : acc.isEmpty
      · rw [if_pos he] at hp; cases hp
      · rw [if_neg he] at hp
        have hpj : p = joinKey acc := (Option.some.inj hp).symm
        subst hpj
        subst hk
        exact length_joinKey_lt_snoc acc seg (by simpa [List.isEmpty_iff] using he)

/-! ## Lemmas about the `ensure_path` loop -/

/-- The canonical `prevKey` of the loop after processing the segments `l`:
`None` before the first iteration, otherwise the composite key of `l`. -/
def accKey : List String → Option String
  | [] => none
  | l => some (joinKey l)

theorem accKey_ne {l : List String} (h : l ≠ []) : accKey l = some (joinKey l) := by
  cases l with
  | nil => exact absurd rfl h
  | cons a l => rfl

theorem loop_find_mono {r : List String} :
    ∀ {s : Store} {a : List String} {q : Option String} {k : String} {n : CategoryNode},
      storeFind s k = some n →
      ∃ n2, storeFind (ensurePathLoop s a q r).1 k = some n2 ∧ NodeLe n n2 := by
  induction r with
  | nil =>
    intro s acc pk? k n h
    exact ⟨n, h, NodeLe.refl n⟩
  | cons seg rest ih =>
    intro s acc pk? k n h
    obtain ⟨n1, h1, hle1⟩ := ensureStep_find_mono (a := acc) (q := pk?) (g := seg) h
    obtain ⟨n2, h2, hle2⟩ := ih h1
    exact ⟨n2, h2, hle1.trans hle2⟩

theorem loop_present_mono {rest : List String} {s : Store} {acc : List String}
    {pk? : Option String} {k : String} (h : present s k = true) :
    present (ensurePathLoop s acc pk? rest).1 k = true := by
  unfold present at h
  cases hf : storeFind s k with
  | none => rw [hf] at h; cases h
  | some n =>
    obtain ⟨n2, h2, _⟩ := loop_find_mono (r := rest) (a := acc) (q := pk?) hf
    unfold present
    rw [h2]
    rfl

theorem loop_children_mono {rest : List String} :
    ∀ {s : Store} {acc : List String} {pk? : Option String} {k c : String},
      c ∈ childrenOf s k → c ∈ childrenOf (ensurePathLoop s acc pk? rest).1 k := by
  induction rest with
  | nil => intro s acc pk? k c h; exact h
  | cons seg rest ih =>
    intro s acc pk? k c h
    exact ih (ensureStep_children_mono h)

theorem loop_pagesOf {r : List String} :
    ∀ {s : Store} {a : List String} {q : Option String} (k : String),
      pagesOf (ensurePathLoop s a q r).1 k = pagesOf s k := by
  induction r with
  | nil => intro s acc pk? k; rfl
  | cons seg rest ih =>
    intro s acc pk? k
    exact (ih k).trans (ensureStep_pagesOf s acc pk? seg k)

theorem loop_WF {r : List String} :
    ∀ {s : Store} {a : List String} {q : Option String},
      StoreWF s → (a = [] ∨ present s (joinKey a) = true) →
      StoreWF (ensurePathLoop s a q r).1 := by
  induction r with
  | nil => intro s acc pk? hwf _; exact hwf
  | cons seg rest ih =>
    intro s acc pk? hwf hacc
    exact ih (ensureStep_WF hwf hacc) (Or.inr (ensureStep_present_new s acc pk? seg))

theorem loop_prefix_present {rest : List String} :
    ∀ {s : Store} {a : List String} {q : Option String} (j : Nat), j < rest.length →
      present (ensurePathLoop s a q rest).1 (joinKey (a ++ rest.take (j + 1))) = true := by
  induction rest with
  | nil => intro s acc pk? j hj; exact absurd hj (Nat.not_lt_zero j)
  | cons seg rest ih =>
    intro s acc pk? j hj
    cases j with
    | zero =>
      have h1 : (seg :: rest).take 1 = [seg] := rfl
      rw [h1]
      show present (ensurePathLoop (ensureStep s acc pk? seg) (acc ++ [seg])
        (some (joinKey (acc ++ [seg]))) rest).1 (joinKey (acc ++ [seg])) = true
      exact loop_present_mono (ensureStep_present_new s acc pk? seg)
    | succ j =>
      have ht : (seg :: rest).take (j + 2) = seg :: rest.take (j + 1) := rfl
      rw [ht, show acc ++ seg :: rest.take (j + 1) = (acc ++ [seg]) ++ rest.take (j + 1) by
        simp]
      exact ih j (Nat.lt_of_succ_lt_succ hj)

theorem loop_retKey {rest : List String} :
    ∀ {s : Store} {a : List String} {q : Option String}, rest ≠ [] →
      (ensurePathLoop s a q rest).2 = some (joinKey (a ++ rest)) := by
  induction rest with
  | nil => intro s acc pk? h; exact absurd rfl h
  | cons seg rest ih =>
    intro s acc pk? _
    by_cases h2 : rest = []
    · subst h2
      show (ensurePathLoop _ (acc ++ [seg]) (some (joinKey (acc ++ [seg]))) []).2 = _
      simp [ensurePathLoop]
    · have hr := ih (s := ensureStep s acc pk? seg) (a := acc ++ [seg])
        (q := some (joinKey (acc ++ [seg]))) h2
      rw [show (acc ++ [seg]) ++ rest = acc ++ seg :: rest by simp] at hr
      exact hr

theorem loop_links {r : List String} :
    ∀ {s : Store} {a : List String},
      (a ≠ [] → present s (joinKey a) = true) →
      ∀ j : Nat, j < r.length → a ++ r.take j ≠ [] →
        joinKey (a ++ r.take (j + 1)) ∈
          childrenOf (ensurePathLoop s a (accKey a) r).1
            (joinKey (a ++ r.take j)) := by
  induction r with
  | nil => intro s acc _ j hj _; exact absurd hj (Nat.not_lt_zero j)
  | cons seg rest ih =>
    intro s acc hacc j hj hne
    cases j with
    | zero =>
      rw [show acc ++ (seg :: rest).take 0 = acc by simp] at hne ⊢
      rw [show (seg :: rest).take 1 = [seg] from rfl]
      have hstep := ensureStep_link (s := s) seg hne (hacc hne)
      rw [show accKey acc = some (joinKey acc) from accKey_ne hne]
      show joinKey (acc ++ [seg]) ∈
        childrenOf (ensurePathLoop (ensureStep s acc (some (joinKey acc)) seg) (acc ++ [seg])
          (some (joinKey (acc ++ [seg]))) rest).1 (joinKey acc)
      exact loop_children_mono hstep
    | succ j =>
      have hsne : acc ++ [seg] ≠ [] := by simp
      have ih2 := ih (s := ensureStep s acc (accKey acc) seg) (a := acc ++ [seg])
        (fun _ => ensureStep_present_new s acc (accKey acc) seg) j
        (Nat.lt_of_succ_lt_succ hj) (by simp)
      rw [accKey_ne hsne] at ih2
      rw [show (seg :: rest).take (j + 2) = seg :: rest.take (j + 1) from rfl,
        show (seg :: rest).take (j + 1) = seg :: rest.take j from rfl,
        show acc ++ seg :: rest.take (j + 1) = (acc ++ [seg]) ++ rest.take (j + 1) by simp,
        show acc ++ seg :: rest.take j = (acc ++ [seg]) ++ rest.take j by simp]
      exact ih2

theorem ensureStep_id {s : Store} {acc : List String} {pk? : Option String} {seg : String}
    (hp : present s (joinKey (acc ++ [seg])) = true)
    (hlk : pk? = none ∨ ∃ pk0, pk? = some pk0 ∧ joinKey (acc ++ [seg]) ∈ childrenOf s pk0) :
    ensureStep s acc pk? seg = s := by
  unfold ensureStep
  have hins : insertPhase s acc seg = s := by unfold insertPhase; simp [hp]
  rw [hins]
  rcases hlk with h | ⟨pk0, hpk, hm⟩
  · subst h; rfl
  · subst hpk
    rw [linkPhase_some_eq]
    unfold childrenOf at hm
    cases hf : storeFind s pk0 with
    | none => rw [hf] at hm
    | some r =>
      rw [hf] at hm
      have hm2 : joinKey (acc ++ [seg]) ∈ r.children := hm
      simp [hm2]

theorem loop_id {r : List String} :
    ∀ {s : Store} {a : List String},
      (∀ j, j < r.length → present s (joinKey (a ++ r.take (j + 1))) = true) →
      (∀ j, j < r.length → a ++ r.take j ≠ [] →
        joinKey (a ++ r.take (j + 1)) ∈ childrenOf s (joinKey (a ++ r.take j))) →
      ensurePathLoop s a (accKey a) r = (s, accKey (a ++ r)) := by
  induction r with
  | nil =>
    intro s acc _ _
    simp [ensurePathLoop]
  | cons seg rest ih =>
    intro s acc hpres hlink
    have hp1 : present s (joinKey (acc ++ [seg])) = true := by
      have h0 := hpres 0 (by simp)
      rw [show (seg :: rest).take 1 = [seg] from rfl] at h0
      exact h0
    have hstep : ensureStep s acc (accKey acc) seg = s := by
      apply ensureStep_id hp1
      by_cases hae : acc = []
      · left; rw [hae]; rfl
      · right
        refine ⟨joinKey acc, accKey_ne hae, ?_⟩
        have hl := hlink 0 (by simp) (by simpa using hae)
        rw [show acc ++ (seg :: rest).take 0 = acc by simp,
          show (seg :: rest).take 1 = [seg] from rfl] at hl
        exact hl
    show ensurePathLoop (ensureStep s acc (accKey acc) seg) (acc ++ [seg])
      (some (joinKey (acc ++ [seg]))) rest = _
    rw [hstep]
    have hrec := ih (s := s) (a := acc ++ [seg]) ?_ ?_
    · rw [accKey_ne (show acc ++ [seg] ≠ [] by simp)] at hrec
      rw [hrec]
      rw [show (acc ++ [seg]) ++ rest = acc ++ seg :: rest by simp]
    · intro j hj
      have h0 := hpres (j + 1) (Nat.succ_lt_succ hj)
      rw [show (seg :: rest).take (j + 2) = seg :: rest.take (j + 1) from rfl,
        show acc ++ seg :: rest.take (j + 1) = (acc ++ [seg]) ++ rest.take (j + 1) by simp]
        at h0
      exact h0
    · intro j hj _
      have h0 := hlink (j + 1) (Nat.succ_lt_succ hj) (by simp)
      rw [show (seg :: rest).take (j + 2) = seg :: rest.take (j + 1) from rfl,
        show (seg :: rest).take (j + 1) = seg :: rest.take j from rfl,
        show acc ++ seg :: rest.take (j + 1) = (acc ++ [seg]) ++ rest.take (j + 1) by simp,
        show acc ++ seg :: rest.take j = (acc ++ [seg]) ++ rest.take j by simp] at h0
      exact h0

theorem linkPhase_keys (s1 : Store) (ck : String) (pk? : Option String) :
    storeKeys (linkPhase s1 ck pk?) = storeKeys s1 := by
  cases pk? with
  | none => rfl
  | some pk =>
    rw [linkPhase_some_eq]
    cases storeFind s1 pk with
    | none => rfl
    | some r =>
      by_cases hm : ck ∈ r.children
      · simp [hm]
      · simp [hm, storeKeys_update]

theorem ensureStep_keys (s : Store) (acc : List String) (pk? : Option String)
    (seg : String) :
    storeKeys (ensureStep s acc pk? seg) =
      if present s (joinKey (acc ++ [seg])) = true then storeKeys s
      else storeKeys s ++ [joinKey (acc ++ [seg])] := by
  unfold ensureStep insertPhase
  rw [linkPhase_keys]
  by_cases hp : present s (joinKey (acc ++ [seg])) <;>
    simp [hp, storeKeys_append, storeKeys]

theorem length_joinKey_take_succ_lt (P : List String) (i : Nat) (h : i + 1 < P.length) :
    (joinKey (P.take (i + 1))).length < (joinKey (P.take (i + 2))).length := by
  have hne : P.take (i + 1) ≠ [] := by
    intro hnil
    rcases List.take_eq_nil_iff.mp hnil with h1 | h1
    · omega
    · rw [h1] at h; simp at h
  have hx : P[i + 1]? = some P[i + 1] := List.getElem?_eq_getElem h
  rw [show P.take (i + 2) = P.take (i + 1) ++ [P[i + 1]] by rw [List.take_succ, hx]; rfl]
  exact length_joinKey_lt_snoc _ _ hne

theorem length_joinKey_take_strictMono (P : List String) :
    ∀ j i : Nat, i < j → j < P.length →
      (joinKey (P.take (i + 1))).length < (joinKey (P.take (j + 1))).length := by
  intro j
  induction j with
  | zero => intro i hij _; exact absurd hij (Nat.not_lt_zero i)
  | succ j ih =>
    intro i hij hj
    have hstep := length_joinKey_take_succ_lt P j hj
    rcases Nat.lt_succ_iff_lt_or_eq.mp hij with h | h
    · exact lt_trans (ih i h (by omega)) hstep
    · subst h; exact hstep

theorem loop_keys {r : List String} :
    ∀ {s : Store} {a : List String} {q : Option String},
      (∀ k, present s k = true → k.length < (joinKey (a ++ r.take 1)).length) →
      storeKeys (ensurePathLoop s a q r).1 =
        storeKeys s ++
          (List.range r.length).map (fun j => joinKey (a ++ r.take (j + 1))) := by
  induction r with
  | nil =>
    intro s acc pk? _
    simp [ensurePathLoop]
  | cons seg rest ih =>
    intro s acc pk? hshort
    have h1 : (seg :: rest).take 1 = [seg] := rfl
    rw [h1] at hshort
    -- the key of the first segment is fresh
    have hfresh : present s (joinKey (acc ++ [seg])) = false := by
      by_cases hp : present s (joinKey (acc ++ [seg])) = true
      · exact absurd (hshort _ hp) (lt_irrefl _)
      · simpa using hp
    have hkeys1 : storeKeys (ensureStep s acc pk? seg) =
        storeKeys s ++ [joinKey (acc ++ [seg])] := by
      rw [ensureStep_keys, hfresh]
      simp
    show storeKeys (ensurePathLoop (ensureStep s acc pk? seg) (acc ++ [seg])
      (some (joinKey (acc ++ [seg]))) rest).1 = _
    cases rest with
    | nil =>
      rw [show ensurePathLoop (ensureStep s acc pk? seg) (acc ++ [seg])
        (some (joinKey (acc ++ [seg]))) [] =
          (ensureStep s acc pk? seg, some (joinKey (acc ++ [seg]))) from rfl]
      rw [hkeys1]
      simp
    | cons seg2 rest2 =>
      have hshort2 : ∀ k, present (ensureStep s acc pk? seg) k = true →
          k.length < (joinKey ((acc ++ [seg]) ++ (seg2 :: rest2).take 1)).length := by
        intro k hk
        have hmem : k ∈ storeKeys s ++ [joinKey (acc ++ [seg])] := by
          rw [← hkeys1]
          exact present_iff_mem.mp hk
        have hbig : (joinKey (acc ++ [seg])).length <
            (joinKey ((acc ++ [seg]) ++ [seg2])).length :=
          length_joinKey_lt_snoc (acc ++ [seg]) seg2 (by simp)
        rw [show (seg2 :: rest2).take 1 = [seg2] from rfl]
        rcases List.mem_append.mp hmem with hm | hm
        · exact lt_trans (hshort k (present_iff_mem.mpr hm)) hbig
        · rw [List.mem_singleton.mp hm]
          exact hbig
      rw [ih hshort2, hkeys1]
      rw [List.append_assoc]
      congr 1
      rw [show (seg :: seg2 :: rest2).length = (seg2 :: rest2).length + 1 from rfl,
        List.range_succ_eq_map, List.map_cons, List.map_map, List.singleton_append]
      congr 1
      apply List.map_congr_left
      intro j _
      rw [show acc ++ [seg] ++ List.take (j + 1) (seg2 :: rest2) =
        acc ++ seg :: List.take (j + 1) (seg2 :: rest2) by simp]
      rfl

/-! ## Lemmas about `ensure_path` and `register_page` -/

theorem length_le_zero_iff_nil {P : List String} : P.length ≤ 0 ↔ P = [] := by
  cases P <;> simp

theorem loop_retKey_nil {P : List String} (hP : P ≠ []) (s : Store) :
    (ensurePathLoop s [] none P).2 = some (joinKey P) := by
  have h := loop_retKey (s := s) (a := []) (q := none) hP
  simpa using h

theorem ensure_path_fst {P : List String} (hP : P ≠ []) (s : Store) :
    (ensure_path s P).1 = (ensurePathLoop s [] none P).1 := by
  unfold ensure_path
  rw [if_neg (by simp [length_le_zero_iff_nil, hP])]

theorem ensure_path_snd {P : List String} (hP : P ≠ []) (s : Store) :
    (ensure_path s P).2 = storeFind (ensurePathLoop s [] none P).1 (joinKey P) := by
  unfold ensure_path
  rw [if_neg (by simp [length_le_zero_iff_nil, hP])]
  simp only [loop_retKey_nil hP]

theorem register_page_inv {s : Store} {pi : PageIndex} {P : List String}
    {url title : String} {s2 : Store} {pi2 : PageIndex}
    (h : register_page s pi P url title = some (s2, pi2)) :
    P ≠ [] ∧ ∃ cat, storeFind (ensurePathLoop s [] none P).1 (joinKey P) = some cat ∧
      s2 = storeUpdate (ensurePathLoop s [] none P).1 (joinKey P)
        (fun n => { n with pages := n.pages ++ [⟨title, url⟩] }) ∧
      pi2 = pageIndexAdd pi url cat.key := by
  unfold register_page at h
  by_cases hP : P.length ≤ 0
  · rw [if_pos hP] at h; cases h
  · rw [if_neg hP] at h
    have hPne : P ≠ [] := fun he => hP (length_le_zero_iff_nil.mpr he)
    rw [loop_retKey_nil hPne] at h
    have h2 : (match storeFind (ensurePathLoop s [] none P).1 (joinKey P) with
        | none => (none : Option (Store × PageIndex))
        | some category =>
          some (storeUpdate (ensurePathLoop s [] none P).1 (joinKey P)
                  (fun n => { n with pages := n.pages ++ [⟨title, url⟩] }),
                pageIndexAdd pi url category.key)) = some (s2, pi2) := h
    clear h
    refine ⟨hPne, ?_⟩
    cases hcat : storeFind (ensurePathLoop s [] none P).1 (joinKey P) with
    | none => rw [hcat] at h2; simp at h2
    | some cat =>
      rw [hcat] at h2
      refine ⟨cat, rfl, ?_, ?_⟩
      · exact (congrArg Prod.fst (Option.some.inj h2)).symm
      · exact (congrArg Prod.snd (Option.some.inj h2)).symm

theorem pagesOf_update_ne {s : Store} {k : String} {f : CategoryNode → CategoryNode}
    {k2 : String} (h : k2 ≠ k) : pagesOf (storeUpdate s k f) k2 = pagesOf s k2 := by
  unfold pagesOf
  rw [storeFind_update, if_neg h]

theorem storeWF_update_of_preserve {s : Store} (hwf : StoreWF s) (k : String)
    (f : CategoryNode → CategoryNode)
    (hf : ∀ n, (f n).key = n.key ∧ (f n).parent = n.parent) :
    StoreWF (storeUpdate s k f) := by
  obtain ⟨hkc, hpc, hps⟩ := hwf
  have hfind : ∀ k2 n2, storeFind (storeUpdate s k f) k2 = some n2 →
      ∃ n, storeFind s k2 = some n ∧ n2.key = n.key ∧ n2.parent = n.parent := by
    intro k2 n2 h2
    rw [storeFind_update] at h2
    by_cases hk : k2 = k
    · rw [if_pos hk] at h2
      cases hfs : storeFind s k2 with
      | none => rw [hfs] at h2; cases h2
      | some n =>
        rw [hfs] at h2
        have : n2 = f n := Option.some.inj h2.symm
        exact ⟨n, rfl, by rw [this]; exact (hf n).1, by rw [this]; exact (hf n).2⟩
    · rw [if_neg hk] at h2
      exact ⟨n2, h2, rfl, rfl⟩
  refine ⟨?_, ?_, ?_⟩
  · intro k2 n2 h2
    obtain ⟨n, hn, hkey, _⟩ := hfind k2 n2 h2
    rw [hkey]
    exact hkc k2 n hn
  · intro k2 n2 p h2 hp
    obtain ⟨n, hn, _, hpar⟩ := hfind k2 n2 h2
    rw [hpar] at hp
    rw [present_update]
    exact hpc k2 n p hn hp
  · intro k2 n2 p h2 hp
    obtain ⟨n, hn, _, hpar⟩ := hfind k2 n2 h2
    rw [hpar] at hp
    exact hps k2 n p hn hp

/-! ## Reachable states -/

/-- The category path an operation registers. -/
def opPath : Op → List String
  | Op.ensure p => p
  | Op.register p _ _ => p

theorem runOpsFrom_cons (st : Store × PageIndex) (op : Op) (ops : List Op) :
    runOpsFrom st (op :: ops) = (runOp st op).bind (fun st2 => runOpsFrom st2 ops) := by
  cases h : runOp st op <;> simp [runOpsFrom, List.foldlM, h, Option.bind]

theorem runOp_WF {st st2 : Store × PageIndex} {op : Op} (hwf : StoreWF st.1)
    (h : runOp st op = some st2) : StoreWF st2.1 := by
  obtain ⟨s, pi⟩ := st
  cases op with
  | ensure P =>
    have hst2 : st2 = ((ensure_path s P).1, pi) := (Option.some.inj h).symm
    subst hst2
    by_cases hP : P = []
    · subst hP
      exact hwf
    · rw [ensure_path_fst hP]
      exact loop_WF hwf (Or.inl rfl)
  | register P url title =>
    obtain ⟨s2, pi2⟩ := st2
    obtain ⟨hP, cat, hcat, hs2, _⟩ := register_page_inv h
    rw [hs2]
    exact storeWF_update_of_preserve (loop_WF hwf (Or.inl rfl)) _ _ (fun n => ⟨rfl, rfl⟩)

theorem runOp_present_mono {st st2 : Store × PageIndex} {op : Op} {k : String}
    (h : runOp st op = some st2) (hp : present st.1 k = true) : present st2.1 k = true := by
  obtain ⟨s, pi⟩ := st
  cases op with
  | ensure P =>
    have hst2 : st2 = ((ensure_path s P).1, pi) := (Option.some.inj h).symm
    subst hst2
    by_cases hP : P = []
    · subst hP; exact hp
    · rw [ensure_path_fst hP]
      exact loop_present_mono hp
  | register P url title =>
    obtain ⟨s2, pi2⟩ := st2
    obtain ⟨hP, cat, hcat, hs2, _⟩ := register_page_inv h
    rw [hs2]
    show present (storeUpdate _ _ _) k = true
    rw [present_update]
    exact loop_present_mono hp

theorem runOp_prefix_present {st st2 : Store × PageIndex} {op : Op}
    (h : runOp st op = some st2) :
    ∀ j, j < (opPath op).length →
      present st2.1 (joinKey ((opPath op).take (j + 1))) = true := by
  obtain ⟨s, pi⟩ := st
  cases op with
  | ensure P =>
    intro j hj
    have hst2 : st2 = ((ensure_path s P).1, pi) := (Option.some.inj h).symm
    subst hst2
    have hP : P ≠ [] := by
      intro he
      subst he
      simp [opPath] at hj
    rw [ensure_path_fst hP]
    have hpp := loop_prefix_present (s := s) (a := []) (q := none) j hj
    simpa using hpp
  | register P url title =>
    intro j hj
    obtain ⟨s2, pi2⟩ := st2
    obtain ⟨hP, cat, hcat, hs2, _⟩ := register_page_inv h
    rw [hs2]
    show present (storeUpdate _ _ _) _ = true
    rw [present_update]
    have hpp := loop_prefix_present (s := s) (a := []) (q := none) j hj
    simpa using hpp

theorem runOpsFrom_WF : ∀ (ops : List Op) {st st2 : Store × PageIndex},
    StoreWF st.1 → runOpsFrom st ops = some st2 → StoreWF st2.1 := by
  intro ops
  induction ops with
  | nil =>
    intro st st2 hwf h
    have : st = st2 := Option.some.inj h
    rw [← this]
    exact hwf
  | cons op ops ih =>
    intro st st2 hwf h
    rw [runOpsFrom_cons] at h
    cases hop : runOp st op with
    | none => rw [hop] at h; cases h
    | some st1 =>
      rw [hop] at h
      exact ih (runOp_WF hwf hop) h

theorem runOpsFrom_present_mono : ∀ (ops : List Op) {st st2 : Store × PageIndex} {k : String},
    runOpsFrom st ops = some st2 → present st.1 k = true → present st2.1 k = true := by
  intro ops
  induction ops with
  | nil =>
    intro st st2 k h hp
    have : st = st2 := Option.some.inj h
    rw [← this]
    exact hp
  | cons op ops ih =>
    intro st st2 k h hp
    rw [runOpsFrom_cons] at h
    cases hop : runOp st op with
    | none => rw [hop] at h; cases h
    | some st1 =>
      rw [hop] at h
      exact ih h (runOp_present_mono hop hp)

theorem runOps_WF {ops : List Op} {s : Store} {pi : PageIndex}
    (h : runOps ops = some (s, pi)) : StoreWF s :=
  runOpsFrom_WF ops storeWF_nil h

theorem runOpsFrom_prefix : ∀ (ops : List Op) {st st2 : Store × PageIndex},
    runOpsFrom st ops = some st2 →
    ∀ op ∈ ops, ∀ j, j < (opPath op).length →
      present st2.1 (joinKey ((opPath op).take (j + 1))) = true := by
  intro ops
  induction ops with
  | nil => intro st st2 _ op hop; cases hop
  | cons op0 ops ih =>
    intro st st2 h op hop j hj
    rw [runOpsFrom_cons] at h
    cases hop0 : runOp st op0 with
    | none => rw [hop0] at h; cases h
    | some st1 =>
      rw [hop0] at h
      rcases List.mem_cons.mp hop with he | hm
      · subst he
        exact runOpsFrom_present_mono ops h (runOp_prefix_present hop0 j hj)
      · exact ih h op hm j hj

/-! ## Claim theorems -/

/-- C9: `register_page(path, pageId, title)` appends exactly one entry to the
`pages` of the node at the composite key of the full path, and leaves the
`pages` of every other key (in particular of every proper ancestor of the
path) unchanged. Proved for arbitrary starting stores, which subsumes all
reachable states. -/
theorem register_page_frame {s : Store} {pi : PageIndex} {P : List String}
    {url title : String} {s2 : Store} {pi2 : PageIndex}
    (h : register_page s pi P url title = some (s2, pi2)) :
    pagesOf s2 (joinKey P) = pagesOf s (joinKey P) ++ [⟨title, url⟩] ∧
      ∀ k, k ≠ joinKey P → pagesOf s2 k = pagesOf s k := by
  obtain ⟨hP, cat, hcat, hs2, _⟩ := register_page_inv h
  subst hs2
  constructor
  · have h1 : pagesOf (storeUpdate (ensurePathLoop s [] none P).1 (joinKey P)
        (fun n => { n with pages := n.pages ++ [⟨title, url⟩] })) (joinKey P) =
        cat.pages ++ [⟨title, url⟩] := by
      unfold pagesOf
      rw [storeFind_update, if_pos rfl, hcat]
      rfl
    have h2 : pagesOf s (joinKey P) = cat.pages := by
      have h3 := loop_pagesOf (r := P) (s := s) (a := []) (q := none) (joinKey P)
      rw [← h3]
      unfold pagesOf
      rw [hcat]
    rw [h1, h2]
  · intro k hk
    rw [pagesOf_update_ne hk]
    exact loop_pagesOf k

theorem register_page_frame_witness :
    ∃ s2 pi2, register_page [] [] ["A", "B"] "p.md" "T" = some (s2, pi2) ∧
      pagesOf s2 (joinKey ["A", "B"]) =
        pagesOf [] (joinKey ["A", "B"]) ++ [⟨"T", "p.md"⟩] ∧
      ∀ k, k ≠ joinKey ["A", "B"] → pagesOf s2 k = pagesOf [] k := by
  obtain ⟨s2, pi2, h⟩ :
      ∃ s2 pi2, register_page [] [] ["A", "B"] "p.md" "T" = some (s2, pi2) := ⟨_, _, rfl⟩
  exact ⟨s2, pi2, h, register_page_frame h⟩

/-- C4: after any sequence of `ensure_path` / `register_page` operations run
from the fresh state, every stored node whose `parent` is not `None` has a
parent key that is itself stored, and for every operation of the sequence
every non-empty prefix of its path (composite-joined) is a key of the final
store. -/
theorem runOps_prefix_complete {ops : List Op} {s : Store} {pi : PageIndex}
    (h : runOps ops = some (s, pi)) :
    ParentClosed s ∧
      ∀ op ∈ ops, ∀ j, j < (opPath op).length →
        present s (joinKey ((opPath op).take (j + 1))) = true :=
  ⟨(runOps_WF h).2.1, runOpsFrom_prefix ops h⟩

theorem runOps_prefix_complete_witness :
    ∃ s pi, runOps [Op.ensure ["A", "B"], Op.register ["C", "D"] "p.md" "T"] = some (s, pi) ∧
      (ParentClosed s ∧
        ∀ op ∈ [Op.ensure ["A", "B"], Op.register ["C", "D"] "p.md" "T"],
          ∀ j, j < (opPath op).length →
            present s (joinKey ((opPath op).take (j + 1))) = true) := by
  obtain ⟨s, pi, h⟩ :
      ∃ s pi, runOps [Op.ensure ["A", "B"], Op.register ["C", "D"] "p.md" "T"]
        = some (s, pi) := ⟨_, _, rfl⟩
  exact ⟨s, pi, h, runOps_prefix_complete h⟩

/-- C3: running `ensure_path(P)` twice from the fresh store leaves the store
of the first run unchanged, and that store holds exactly one node per
distinct non-empty prefix of `P`: its key list is the list of composite keys
of the non-empty prefixes of `P`, without duplicates. -/
theorem ensure_path_idempotent (P : List String) :
    (ensure_path (ensure_path [] P).1 P).1 = (ensure_path [] P).1 ∧
      storeKeys (ensure_path [] P).1 =
        (List.range P.length).map (fun j => joinKey (P.take (j + 1))) ∧
      (storeKeys (ensure_path [] P).1).Nodup := by
  have hkeys : storeKeys (ensure_path [] P).1 =
      (List.range P.length).map (fun j => joinKey (P.take (j + 1))) := by
    by_cases hP : P = []
    · subst hP; rfl
    · rw [ensure_path_fst hP]
      have hk := loop_keys (r := P) (s := []) (a := []) (q := none) ?_
      · simpa using hk
      · intro k hpk
        simp [present, storeFind] at hpk
  refine ⟨?_, hkeys, ?_⟩
  · by_cases hP : P = []
    · subst hP; rfl
    · rw [ensure_path_fst hP, ensure_path_fst hP]
      have hid := loop_id (r := P) (s := (ensurePathLoop [] [] none P).1) (a := []) ?_ ?_
      · have hacc0 : accKey ([] : List String) = none := rfl
        rw [hacc0] at hid
        rw [hid]
      · intro j hj
        have hpp := loop_prefix_present (s := ([] : Store)) (a := []) (q := none) j hj
        simpa using hpp
      · intro j hj hne
        have hll := loop_links (r := P) (s := ([] : Store)) (a := [])
          (fun hc => absurd rfl hc) j hj hne
        exact hll
  · rw [hkeys]
    apply List.Nodup.map_on ?_ (List.nodup_range P.length)
    intro i hi j hj heq
    by_contra hne2
    have hi2 := List.mem_range.mp hi
    have hj2 := List.mem_range.mp hj
    have hlen := congrArg String.length heq
    rcases lt_or_gt_of_ne hne2 with hlt | hgt
    · exact absurd hlen (Nat.ne_of_lt (length_joinKey_take_strictMono P j i hlt hj2))
    · exact absurd hlen (Nat.ne_of_gt (length_joinKey_take_strictMono P i j hgt hi2))

/-- C2 counterexample: the two distinct category paths `["A", "B"]` and
`["A-B"]` produce the same composite key `"A-B"`, so the second
`ensure_path` call creates no node and returns the node already created for
the first path: distinct paths share one `CategoryNode`. -/
theorem ensure_path_key_collision :
    (ensure_path (ensure_path [] ["A", "B"]).1 ["A-B"]).1 = (ensure_path [] ["A", "B"]).1 ∧
      (ensure_path (ensure_path [] ["A", "B"]).1 ["A-B"]).2 = (ensure_path [] ["A", "B"]).2 ∧
      (["A", "B"] : List String) ≠ ["A-B"] := by
  refine ⟨?_, ?_, ?_⟩ <;> decide

theorem splitAtHyphen : ∀ (x1 x2 y1 y2 : List Char),
    ('-' : Char) ∉ x1 → ('-' : Char) ∉ x2 →
    x1 ++ '-' :: y1 = x2 ++ '-' :: y2 → x1 = x2 ∧ y1 = y2 := by
  intro x1
  induction x1 with
  | nil =>
    intro x2 y1 y2 _ h2 heq
    cases x2 with
    | nil =>
      simp only [List.nil_append] at heq
      exact ⟨rfl, (List.cons.inj heq).2⟩
    | cons c x2 =>
      simp only [List.nil_append, List.cons_append] at heq
      obtain ⟨h3, _⟩ := List.cons.inj heq
      exact absurd (h3 ▸ List.mem_cons_self c x2) h2
  | cons c x1 ih =>
    intro x2 y1 y2 h1 h2 heq
    cases x2 with
    | nil =>
      simp only [List.cons_append, List.nil_append] at heq
      obtain ⟨h3, _⟩ := List.cons.inj heq
      exact absurd (h3 ▸ List.mem_cons_self c x1) h1
    | cons d x2 =>
      simp only [List.cons_append] at heq
      obtain ⟨h3, h4⟩ := List.cons.inj heq
      subst h3
      obtain ⟨ha, hb⟩ := ih x2 y1 y2 (fun hm => h1 (List.mem_cons_of_mem c hm))
        (fun hm => h2 (List.mem_cons_of_mem c hm)) h4
      exact ⟨by rw [ha], hb⟩

theorem joinKey_data_cons (a : String) (rest : List String) (h : rest ≠ []) :
    (joinKey (a :: rest)).data = a.data ++ '-' :: (joinKey rest).data := by
  cases rest with
  | nil => exact absurd rfl h
  | cons b t =>
    show (a ++ "-" ++ joinKey (b :: t)).data = _
    rw [String.data_append, String.data_append]
    simp

/-- Joining with `"-"` is injective on non-empty paths of hyphen-free
segments. -/
theorem joinKey_inj : ∀ (p : List String), p ≠ [] → (∀ x ∈ p, ('-' : Char) ∉ x.data) →
    ∀ (q : List String), q ≠ [] → (∀ x ∈ q, ('-' : Char) ∉ x.data) →
    joinKey p = joinKey q → p = q := by
  intro p
  induction p with
  | nil => intro h; exact absurd rfl h
  | cons a p ih =>
    intro _ hpf q hq hqf heq
    cases q with
    | nil => exact absurd rfl hq
    | cons b q =>
      have haf : ('-' : Char) ∉ a.data := hpf a (List.mem_cons_self a p)
      have hbf : ('-' : Char) ∉ b.data := hqf b (List.mem_cons_self b q)
      by_cases hpe : p = [] <;> by_cases hqe : q = []
      · subst hpe; subst hqe
        rw [show joinKey [a] = a from rfl, show joinKey [b] = b from rfl] at heq
        rw [heq]
      · subst hpe
        have hdata := congrArg String.data heq
        rw [show joinKey [a] = a from rfl, joinKey_data_cons b q hqe] at hdata
        exact absurd (hdata ▸ List.mem_append_right b.data
          (List.mem_cons_self '-' (joinKey q).data)) haf
      · subst hqe
        have hdata := congrArg String.data heq
        rw [show joinKey [b] = b from rfl, joinKey_data_cons a p hpe] at hdata
        exact absurd (hdata.symm ▸ List.mem_append_right a.data
          (List.mem_cons_self '-' (joinKey p).data)) hbf
      · have hdata := congrArg String.data heq
        rw [joinKey_data_cons a p hpe, joinKey_data_cons b q hqe] at hdata
        obtain ⟨hab, hrest⟩ := splitAtHyphen a.data b.data _ _ haf hbf hdata
        have hab2 : a = b := String.ext hab
        have hjoin : joinKey p = joinKey q := String.ext hrest
        have hpq := ih hpe (fun x hx => hpf x (List.mem_cons_of_mem a hx))
          q hqe (fun x hx => hqf x (List.mem_cons_of_mem b hx)) hjoin
        rw [hab2, hpq]

theorem ensure_path_result_key {s : Store} (hwf : StoreWF s) {P : List String}
    (hP : P ≠ []) {n : CategoryNode} (h : (ensure_path s P).2 = some n) :
    n.key = joinKey P := by
  rw [ensure_path_snd hP] at h
  have hwf2 := loop_WF (r := P) (s := s) (a := []) (q := none) hwf (Or.inl rfl)
  exact hwf2.1 _ _ h

/-- C2 (amended): on any well-formed store, two distinct non-empty category
paths whose segments contain no hyphen (the fixed join separator) are
assigned distinct composite keys by `ensure_path`, so they never share a
`CategoryNode`. Without the hyphen-free proviso the claim is false, see the
counterexample. -/
theorem ensure_path_distinct_keys {s : Store} (hwf : StoreWF s)
    {p q : List String} (hp : p ≠ []) (hq : q ≠ [])
    (hpf : ∀ x ∈ p, ('-' : Char) ∉ x.data) (hqf : ∀ x ∈ q, ('-' : Char) ∉ x.data)
    (hne : p ≠ q) {np nq : CategoryNode}
    (h1 : (ensure_path s p).2 = some np) (h2 : (ensure_path s q).2 = some nq) :
    np.key ≠ nq.key := by
  rw [ensure_path_result_key hwf hp h1, ensure_path_result_key hwf hq h2]
  intro heq
  exact hne (joinKey_inj p hp hpf q hq hqf heq)

theorem ensure_path_distinct_keys_witness :
    ∃ np nq, (ensure_path [] ["A"]).2 = some np ∧
      (ensure_path [] ["B", "C"]).2 = some nq ∧ np.key ≠ nq.key := by
  obtain ⟨np, h1⟩ : ∃ np, (ensure_path [] ["A"]).2 = some np := ⟨_, rfl⟩
  obtain ⟨nq, h2⟩ : ∃ nq, (ensure_path [] ["B", "C"]).2 = some nq := ⟨_, rfl⟩
  exact ⟨np, nq, h1, h2,
    ensure_path_distinct_keys storeWF_nil (by decide) (by decide) (by decide) (by decide)
      (by decide) h1 h2⟩

/-! ## Breadcrumb lemmas -/

theorem breadcrumbGo_none (s : Store) (fuel : Nat) (lineage : List String) :
    breadcrumbGo s fuel none lineage = some lineage := by
  cases fuel <;> rfl

theorem breadcrumbGo_spec {s : Store} (hwf : StoreWF s) :
    ∀ (fuel : Nat) (k : String) (n : CategoryNode), storeFind s k = some n →
      k.length < fuel → ∀ acc : List String,
      ∃ l, breadcrumbGo s fuel (some k) acc = some (acc ++ l) ∧
        l.head? = some k ∧
        (∃ m rn, l.getLast? = some m ∧ storeFind s m = some rn ∧ rn.parent = none) ∧
        List.Chain' (fun a b => b.length < a.length) l ∧
        (∀ x ∈ l, present s x = true) := by
  intro fuel
  induction fuel with
  | zero => intro k n _ hlt; exact absurd hlt (Nat.not_lt_zero _)
  | succ fuel ih =>
    intro k n hk hlt acc
    have hred : breadcrumbGo s (fuel + 1) (some k) acc =
        breadcrumbGo s fuel n.parent (acc ++ [k]) := by
      simp only [breadcrumbGo, hk]
    rw [hred]
    cases hpar : n.parent with
    | none =>
      refine ⟨[k], ?_, rfl, ⟨k, n, rfl, hk, hpar⟩, List.chain'_singleton k, ?_⟩
      · exact breadcrumbGo_none s fuel (acc ++ [k])
      · intro x hx
        rw [List.mem_singleton.mp hx]
        simp [present, hk]
    | some pk =>
      have hpk : present s pk = true := hwf.2.1 k n pk hk hpar
      obtain ⟨n2, hn2⟩ := Option.isSome_iff_exists.mp hpk
      have hlen : pk.length < k.length := hwf.2.2 k n pk hk hpar
      have hlt2 : pk.length < fuel := by omega
      obtain ⟨l2, hgo, hhead, hlast, hchain, hpres⟩ := ih pk n2 hn2 hlt2 (acc ++ [k])
      have hl2ne : l2 ≠ [] := by
        intro he; rw [he] at hhead; cases hhead
      refine ⟨k :: l2, ?_, rfl, ?_, ?_, ?_⟩
      · rw [hgo]
        congr 1
        simp
      · obtain ⟨m, rn, hl, hf, hp⟩ := hlast
        refine ⟨m, rn, ?_, hf, hp⟩
        cases l2 with
        | nil => exact absurd rfl hl2ne
        | cons x l3 => rw [List.getLast?_cons_cons]; exact hl
      · refine List.chain'_cons'.mpr ⟨?_, hchain⟩
        intro y hy
        rw [hhead] at hy
        have hy2 : y = pk := by
          cases hy
          rfl
        rw [hy2]
        exact hlen
      · intro x hx
        rcases List.mem_cons.mp hx with he | hm2
        · rw [he]; simp [present, hk]
        · exact hpres x hm2

/-- C5: for every key present in a store reachable by a sequence of
registrations, `get_breadcrumb_keys` terminates (within its length-bounded
fuel) and returns a non-empty sequence without repeated keys whose last
element is the given key and whose first element is a root node
(`parent = None`). -/
theorem get_breadcrumb_keys_spec {o : List Op} {s : Store} {pi : PageIndex} {K : String}
    {n : CategoryNode} (hrun : runOps o = some (s, pi)) (hK : storeFind s K = some n) :
    ∃ l, get_breadcrumb_keys s K = some l ∧ l ≠ [] ∧ l.getLast? = some K ∧ l.Nodup ∧
      ∃ h rn, l.head? = some h ∧ storeFind s h = some rn ∧ rn.parent = none := by
  have hwf := runOps_WF hrun
  obtain ⟨l, hgo, hhead, ⟨m, rn, hlast, hf, hp⟩, hchain, _⟩ :=
    breadcrumbGo_spec hwf (K.length + 1) K n hK (by omega) []
  have hlne : l ≠ [] := by
    intro he; rw [he] at hhead; cases hhead
  refine ⟨l.reverse, ?_, ?_, ?_, ?_, ?_⟩
  · unfold get_breadcrumb_keys
    rw [hgo]
    rfl
  · simpa using hlne
  · rw [List.getLast?_reverse]
    exact hhead
  · rw [List.nodup_reverse]
    haveI : IsTrans String (fun a b => b.length < a.length) :=
      ⟨fun _ _ _ hab hbc => lt_trans hbc hab⟩
    have hpw : l.Pairwise (fun a b => b.length < a.length) :=
      List.chain'_iff_pairwise.mp hchain
    exact hpw.imp (fun hab => fun he => by rw [he] at hab; exact lt_irrefl _ hab)
  · refine ⟨m, rn, ?_, hf, hp⟩
    rw [List.head?_reverse]
    exact hlast

theorem get_breadcrumb_keys_witness :
    ∃ s pi, runOps [Op.ensure ["A", "B"]] = some (s, pi) ∧
      ∃ l, get_breadcrumb_keys s "A-B" = some l ∧ l ≠ [] ∧ l.getLast? = some "A-B" ∧
        l.Nodup ∧ ∃ h rn, l.head? = some h ∧ storeFind s h = some rn ∧ rn.parent = none := by
  refine ⟨_, _, rfl, ?_⟩
  exact get_breadcrumb_keys_spec (o := [Op.ensure ["A", "B"]]) rfl rfl

/-- C7 counterexample: with `base_name = "Categories"` (not lowercase), a
section titled `"Categories"` has a title equal to the base name ignoring
case, yet `on_nav` removes nothing, because the source compares the
lowercased title against the base name as configured. -/
theorem on_nav_not_case_insensitive :
    pyLower (NavItem.mk true "Categories").title = pyLower "Categories" ∧
      (NavItem.mk true "Categories").is_section = true ∧
      on_nav true "Categories" [NavItem.mk true "Categories"] =
        [NavItem.mk true "Categories"] := by
  refine ⟨?_, ?_, ?_⟩ <;> decide

/-- C7 (amended): when `no_nav` is unset the navigation is unchanged. When
`no_nav` is set, `on_nav` removes at most one branch: the first section
whose lowercased title equals the configured `base_name` exactly (so a match
is case-insensitive in the title only; titles equal to a non-lowercase
`base_name` ignoring case are not removed). If no section matches, the
navigation is unchanged. -/
theorem on_nav_removes_first_match (b : String) (nav : List NavItem) :
    on_nav false b nav = nav ∧
      (((∀ x ∈ nav, ¬(x.is_section = true ∧ pyLower x.title = b)) ∧
          on_nav true b nav = nav) ∨
        ∃ l1 x l2, nav = l1 ++ x :: l2 ∧ x.is_section = true ∧ pyLower x.title = b ∧
          (∀ y ∈ l1, ¬(y.is_section = true ∧ pyLower y.title = b)) ∧
          on_nav true b nav = l1 ++ l2) := by
  constructor
  · rfl
  · have hon : on_nav true b nav = removeFirstMatch b nav := rfl
    rw [hon]
    clear hon
    induction nav with
    | nil => exact Or.inl ⟨by simp, rfl⟩
    | cons item rest ih =>
      by_cases hm : item.is_section = true ∧ pyLower item.title = b
      · right
        refine ⟨[], item, rest, rfl, hm.1, hm.2, by simp, ?_⟩
        show removeFirstMatch b (item :: rest) = rest
        unfold removeFirstMatch
        rw [if_pos hm]
      · rcases ih with ⟨hall, heq⟩ | ⟨l1, x, l2, hnav, hsec, htit, hnone, heq⟩
        · left
          refine ⟨?_, ?_⟩
          · intro x hx
            rcases List.mem_cons.mp hx with he | hmem
            · rw [he]; exact hm
            · exact hall x hmem
          · show removeFirstMatch b (item :: rest) = item :: rest
            unfold removeFirstMatch
            rw [if_neg hm, heq]
        · right
          refine ⟨item :: l1, x, l2, by rw [hnav]; rfl, hsec, htit, ?_, ?_⟩
          · intro y hy
            rcases List.mem_cons.mp hy with he | hmem
            · rw [he]; exact hm
            · exact hnone y hmem
          · show removeFirstMatch b (item :: rest) = (item :: l1) ++ l2
            unfold removeFirstMatch
            rw [if_neg hm, heq]
            rfl

/-- C8: the category hierarchy listing renders siblings in natural order by
display name: with root categories named `"Item 2"`, `"Item 10"`, `"Item 1"`
(inserted in that order) and children `"Part 2"`, `"Part 10"` under
`"Item 1"`, the rendered lines list `Item 1, Item 2, Item 10` at depth zero
and `Part 2, Part 10` at depth one — not the lexicographic order, in which
`"Item 10" < "Item 2"`. -/
theorem render_category_hierarchy_natural_order :
    ∃ s pi, runOps [Op.ensure ["Item 2"], Op.ensure ["Item 10"], Op.ensure ["Item 1"],
        Op.ensure ["Item 1", "Part 2"], Op.ensure ["Item 1", "Part 10"]] = some (s, pi) ∧
      renderHierarchyTop s = some
        ["- [Item 1](./item-1.md) (0)",
         "    - [Part 2](./item-1-part-2.md) (0)",
         "    - [Part 10](./item-1-part-10.md) (0)",
         "- [Item 2](./item-2.md) (0)",
         "- [Item 10](./item-10.md) (0)"] ∧
      charListLt ("Item 10").data ("Item 2").data = true := by
  refine ⟨_, _, rfl, ?_, ?_⟩ <;> decide

/-- C1 (code bug): on a documentation page whose `categories` metadata value
is a string rather than a list, `define_categories` does not log-and-skip:
building the error-log message evaluates `meta_data["categories"].__name__`,
which raises `AttributeError` on YAML data, aborting the scan before any
later page is processed. The second conjunct shows the later page on its own
would have defined a category. -/
theorem define_categories_aborts_on_malformed :
    define_categories (Char.ofNat 124) ([], [])
        [⟨true, "bad.md", [("categories", MetaVal.str "Animals")], none⟩,
         ⟨true, "good.md", [("categories", MetaVal.list [MetaVal.str "Birds"])], some "Good"⟩]
      = Except.error (PyError.attributeError "bad.md") ∧
    (define_categories (Char.ofNat 124) ([], [])
        [⟨true, "good.md", [("categories", MetaVal.list [MetaVal.str "Birds"])],
          some "Good"⟩]).toOption.map (fun st => storeKeys st.1) = some ["Birds"] := by
  constructor <;> rfl

/-- C6: registering a page under the category path `"A|B"` split on the
separator `"|"` puts the page's url in the page index under a key set
containing `"A-B"`, and the pages section of the rendered category document
for `"A-B"` lists the page's title. -/
theorem register_page_round_trip (url title : String) :
    ∃ s2 pi2 n,
      register_page [] [] (splitChar (Char.ofNat 124) "A|B") url title = some (s2, pi2) ∧
      (∃ ks, indexFind pi2 url = some ks ∧ "A-B" ∈ ks) ∧
      storeFind s2 "A-B" = some n ∧
      n.pages = [⟨title, url⟩] ∧
      render_category_pages n =
        (true, some ("- " ++ "[" ++ title ++ "](../" ++ url ++ ")")) := by
  refine ⟨[("A", ⟨"A", "A", "a", [], none, ["A-B"]⟩),
           ("A-B", ⟨"B", "A-B", "a-b", [⟨title, url⟩], some "A", []⟩)],
          [(url, ["A-B"])],
          ⟨"B", "A-B", "a-b", [⟨title, url⟩], some "A", []⟩,
          ?_, ⟨["A-B"], ?_, ?_⟩, ?_, ?_, ?_⟩
  · rfl
  · simp [indexFind]
  · decide
  · rfl
  · rfl
  · rfl

/-! ## Slug idempotence lemmas -/

theorem char_toNat_ofNat {n : Nat} (h : n.isValidChar) : (Char.ofNat n).toNat = n := by
  rw [Char.ofNat, dif_pos h]
  rfl

theorem char_eq_of_toNat_eq {c d : Char} (h : c.toNat = d.toNat) : c = d :=
  Char.ext (UInt32.toNat.inj h)

theorem eq_hyphen_iff {c : Char} : c = '-' ↔ c.toNat = 45 :=
  ⟨fun h => by rw [h]; rfl, fun h => char_eq_of_toNat_eq (by rw [h]; rfl)⟩

theorem lowerChar_toNat_of_upper {c : Char} (h : 65 ≤ c.toNat ∧ c.toNat ≤ 90) :
    (lowerChar c).toNat = c.toNat + 32 := by
  unfold lowerChar
  rw [if_pos h]
  exact char_toNat_ofNat (Or.inl (by omega))

theorem lowerChar_eq_of_not_upper {c : Char} (h : ¬(65 ≤ c.toNat ∧ c.toNat ≤ 90)) :
    lowerChar c = c := by
  unfold lowerChar
  rw [if_neg h]

theorem isWordChar_iff {c : Char} : isWordChar c = true ↔
    (65 ≤ c.toNat ∧ c.toNat ≤ 90) ∨ (97 ≤ c.toNat ∧ c.toNat ≤ 122) ∨
    (48 ≤ c.toNat ∧ c.toNat ≤ 57) ∨ c.toNat = 95 := by
  unfold isWordChar
  simp only [Bool.or_eq_true, Bool.and_eq_true, decide_eq_true_iff]
  tauto

theorem isPySpace_iff {c : Char} : isPySpace c = true ↔
    c.toNat = 32 ∨ c.toNat = 9 ∨ c.toNat = 10 ∨ c.toNat = 13 ∨ c.toNat = 11 ∨
    c.toNat = 12 ∨ (28 ≤ c.toNat ∧ c.toNat ≤ 31) := by
  unfold isPySpace
  simp only [Bool.or_eq_true, Bool.and_eq_true, decide_eq_true_iff]
  tauto

theorem isSepChar_iff {c : Char} : isSepChar c = true ↔
    c.toNat = 45 ∨ isPySpace c = true := by
  unfold isSepChar
  rw [Bool.or_eq_true, decide_eq_true_iff, eq_hyphen_iff]

/-- The shape of every character that `slugify` can output: a lowercase
word character or a hyphen. -/
def SlugOk (c : Char) : Prop :=
  (isWordChar c = true ∧ ¬(65 ≤ c.toNat ∧ c.toNat ≤ 90)) ∨ c = '-'

theorem slugOk_toNat {c : Char} (h : SlugOk c) :
    (97 ≤ c.toNat ∧ c.toNat ≤ 122) ∨ (48 ≤ c.toNat ∧ c.toNat ≤ 57) ∨
      c.toNat = 95 ∨ c.toNat = 45 := by
  rcases h with ⟨hw, hu⟩ | hh
  · rcases isWordChar_iff.mp hw with h1 | h2 | h3 | h4
    · exact absurd h1 hu
    · exact Or.inl h2
    · exact Or.inr (Or.inl h3)
    · exact Or.inr (Or.inr (Or.inl h4))
  · exact Or.inr (Or.inr (Or.inr (eq_hyphen_iff.mp hh)))

theorem slugOk_not_space {c : Char} (h : SlugOk c) : isPySpace c = false := by
  rw [Bool.eq_false_iff]
  intro hs
  have h1 := isPySpace_iff.mp hs
  have h2 := slugOk_toNat h
  omega

theorem slugOk_ascii {c : Char} (h : SlugOk c) : c.toNat < 128 := by
  have := slugOk_toNat h
  omega

theorem slugOk_lower_fixed {c : Char} (h : SlugOk c) : lowerChar c = c := by
  apply lowerChar_eq_of_not_upper
  have := slugOk_toNat h
  omega

theorem slugOk_sep_eq_hyphen {c : Char} (h : SlugOk c) :
    isSepChar c = false ∨ c = '-' := by
  rcases h with ⟨hw, hu⟩ | hh
  · left
    rw [Bool.eq_false_iff]
    intro hs
    have h1 := isSepChar_iff.mp hs
    have h2 := isWordChar_iff.mp hw
    rcases h1 with h1 | h1
    · omega
    · have h3 := isPySpace_iff.mp h1
      omega
  · exact Or.inr hh

theorem collapseSeps_chars : ∀ (l : List Char) (c : Char), c ∈ collapseSeps l →
    c = '-' ∨ (c ∈ l ∧ isSepChar c = false) := by
  intro l
  induction l with
  | nil => intro c h; cases h
  | cons a l ih =>
    intro c h
    by_cases ha : isSepChar a = true
    · cases l with
      | nil =>
        rw [show collapseSeps [a] = ['-'] by simp [collapseSeps, ha]] at h
        rw [List.mem_singleton.mp h]
        exact Or.inl rfl
      | cons d l2 =>
        by_cases hd : isSepChar d = true
        · rw [show collapseSeps (a :: d :: l2) = collapseSeps (d :: l2) by
            simp [collapseSeps, ha, hd]] at h
          rcases ih c h with h1 | ⟨h2, h3⟩
          · exact Or.inl h1
          · exact Or.inr ⟨List.mem_cons_of_mem a h2, h3⟩
        · rw [show collapseSeps (a :: d :: l2) = '-' :: collapseSeps (d :: l2) by
            simp [collapseSeps, ha, hd]] at h
          rcases List.mem_cons.mp h with h1 | h1
          · exact Or.inl h1
          · rcases ih c h1 with h2 | ⟨h3, h4⟩
            · exact Or.inl h2
            · exact Or.inr ⟨List.mem_cons_of_mem a h3, h4⟩
    · rw [show collapseSeps (a :: l) = a :: collapseSeps l by simp [collapseSeps, ha]] at h
      rcases List.mem_cons.mp h with h1 | h1
      · rw [h1]
        exact Or.inr ⟨List.mem_cons_self a l, Bool.eq_false_iff.mpr ha⟩
      · rcases ih c h1 with h2 | ⟨h3, h4⟩
        · exact Or.inl h2
        · exact Or.inr ⟨List.mem_cons_of_mem a h3, h4⟩

theorem collapseSeps_chain : ∀ l : List Char,
    List.Chain' (fun a b => ¬(isSepChar a = true ∧ isSepChar b = true)) (collapseSeps l) := by
  intro l
  induction l with
  | nil => exact List.chain'_nil
  | cons a l ih =>
    by_cases ha : isSepChar a = true
    · cases l with
      | nil =>
        rw [show collapseSeps [a] = ['-'] by simp [collapseSeps, ha]]
        exact List.chain'_singleton _
      | cons d l2 =>
        by_cases hd : isSepChar d = true
        · rw [show collapseSeps (a :: d :: l2) = collapseSeps (d :: l2) by
            simp [collapseSeps, ha, hd]]
          exact ih
        · rw [show collapseSeps (a :: d :: l2) = '-' :: collapseSeps (d :: l2) by
            simp [collapseSeps, ha, hd]]
          refine List.chain'_cons'.mpr ⟨?_, ih⟩
          intro y hy
          rw [show collapseSeps (d :: l2) = d :: collapseSeps l2 by
            simp [collapseSeps, hd]] at hy
          have hyd : y = d := by cases hy; rfl
          rw [hyd]
          intro hcon
          exact absurd hcon.2 hd
    · rw [show collapseSeps (a :: l) = a :: collapseSeps l by simp [collapseSeps, ha]]
      refine List.chain'_cons'.mpr ⟨?_, ih⟩
      intro y _
      intro hcon
      exact absurd hcon.1 ha

theorem collapseSeps_id : ∀ l : List Char,
    (∀ c ∈ l, isSepChar c = false ∨ c = '-') →
    List.Chain' (fun a b => ¬(isSepChar a = true ∧ isSepChar b = true)) l →
    collapseSeps l = l := by
  intro l
  induction l with
  | nil => intro _ _; rfl
  | cons a l ih =>
    intro hc hch
    by_cases ha : isSepChar a = true
    · have ha2 : a = '-' := (hc a (List.mem_cons_self a l)).resolve_left (by simp [ha])
      cases l with
      | nil =>
        rw [show collapseSeps [a] = ['-'] by simp [collapseSeps, ha], ha2]
      | cons d l2 =>
        have hd : isSepChar d = false := by
          have hrel := (List.chain'_cons.mp hch).1
          rw [Bool.eq_false_iff]
          intro hdt
          exact hrel ⟨ha, hdt⟩
        rw [show collapseSeps (a :: d :: l2) = '-' :: collapseSeps (d :: l2) by
          simp [collapseSeps, ha, hd]]
        rw [ih (fun c hcm => hc c (List.mem_cons_of_mem a hcm)) (List.Chain'.tail hch), ha2]
    · rw [show collapseSeps (a :: l) = a :: collapseSeps l by simp [collapseSeps, ha]]
      rw [ih (fun c hcm => hc c (List.mem_cons_of_mem a hcm)) (List.Chain'.tail hch)]

theorem dropWhile_eq_self_of_not {l : List Char} (h : ∀ c ∈ l, isPySpace c = false) :
    l.dropWhile isPySpace = l := by
  cases l with
  | nil => rfl
  | cons a l2 =>
    rw [List.dropWhile_cons]
    simp [h a (List.mem_cons_self a l2)]

theorem stripList_id {l : List Char} (h : ∀ c ∈ l, isPySpace c = false) :
    stripList l = l := by
  unfold stripList
  rw [dropWhile_eq_self_of_not h,
    dropWhile_eq_self_of_not (fun c hc => h c (List.mem_reverse.mp hc)),
    List.reverse_reverse]

theorem stripList_subset {l : List Char} {c : Char} (h : c ∈ stripList l) : c ∈ l := by
  unfold stripList at h
  have h1 := List.mem_reverse.mp h
  have h2 := (List.dropWhile_sublist (p := isPySpace)
    (l := (l.dropWhile isPySpace).reverse)).subset h1
  have h3 := List.mem_reverse.mp h2
  exact (List.dropWhile_sublist (p := isPySpace) (l := l)).subset h3

theorem map_lowerChar_id {l : List Char} (h : ∀ c ∈ l, lowerChar c = c) :
    l.map lowerChar = l := by
  induction l with
  | nil => rfl
  | cons a l2 ih =>
    rw [List.map_cons, h a (List.mem_cons_self a l2),
      ih (fun c hc => h c (List.mem_cons_of_mem a hc))]

theorem slugify_data (s : String) : (slugify s).data =
    collapseSeps ((stripList ((s.data.filter (fun c => c.toNat < 128)).filter
      (fun c => isWordChar c || isPySpace c || decide (c = '-')))).map lowerChar) := rfl

theorem slugify_output_ok (s : String) :
    (∀ c ∈ (slugify s).data, SlugOk c) ∧
      List.Chain' (fun a b => ¬(isSepChar a = true ∧ isSepChar b = true))
        (slugify s).data := by
  rw [slugify_data]
  constructor
  · intro c hc
    rcases collapseSeps_chars _ c hc with h1 | ⟨h2, h3⟩
    · exact Or.inr h1
    · obtain ⟨c0, hc0mem, hc0⟩ := List.mem_map.mp h2
      have hkept := stripList_subset hc0mem
      have hfil := (List.mem_filter.mp hkept).2
      simp only [Bool.or_eq_true, decide_eq_true_eq] at hfil
      rcases hfil with (hw | hsp) | hdash
      · by_cases hu : 65 ≤ c0.toNat ∧ c0.toNat ≤ 90
        · left
          constructor
          · rw [← hc0]
            apply isWordChar_iff.mpr
            rw [lowerChar_toNat_of_upper hu]
            have := isWordChar_iff.mp hw
            omega
          · rw [← hc0]
            rw [show (lowerChar c0).toNat = c0.toNat + 32 from lowerChar_toNat_of_upper hu]
            omega
        · rw [← hc0, lowerChar_eq_of_not_upper hu]
          exact Or.inl ⟨hw, hu⟩
      · have hnu : ¬(65 ≤ c0.toNat ∧ c0.toNat ≤ 90) := by
          have := isPySpace_iff.mp hsp
          omega
        have hcc : c = c0 := by rw [← hc0, lowerChar_eq_of_not_upper hnu]
        rw [hcc] at h3
        rw [isSepChar_iff.mpr (Or.inr hsp)] at h3
        cases h3
      · have hnu : ¬(65 ≤ c0.toNat ∧ c0.toNat ≤ 90) := by
          have hd2 := hdash
          rw [eq_hyphen_iff] at hd2
          omega
        right
        rw [← hc0, lowerChar_eq_of_not_upper hnu]
        exact hdash
  · exact collapseSeps_chain _

theorem slugify_fixed {l : List Char} (hok : ∀ c ∈ l, SlugOk c)
    (hch : List.Chain' (fun a b => ¬(isSepChar a = true ∧ isSepChar b = true)) l) :
    slugify ⟨l⟩ = ⟨l⟩ := by
  apply String.ext
  rw [slugify_data]
  show collapseSeps ((stripList ((l.filter (fun c => c.toNat < 128)).filter
    (fun c => isWordChar c || isPySpace c || decide (c = '-')))).map lowerChar) = l
  have h1 : l.filter (fun c => c.toNat < 128) = l :=
    List.filter_eq_self.mpr (fun c hc => decide_eq_true (slugOk_ascii (hok c hc)))
  have h2 : l.filter (fun c => isWordChar c || isPySpace c || decide (c = '-')) = l := by
    apply List.filter_eq_self.mpr
    intro c hc
    rcases hok c hc with ⟨hw, _⟩ | hh
    · rw [Bool.or_eq_true, Bool.or_eq_true]
      exact Or.inl (Or.inl hw)
    · rw [Bool.or_eq_true]
      exact Or.inr (decide_eq_true hh)
  rw [h1, h2, stripList_id (fun c hc => slugOk_not_space (hok c hc)),
    map_lowerChar_id (fun c hc => slugOk_lower_fixed (hok c hc))]
  exact collapseSeps_id l (fun c hc => slugOk_sep_eq_hyphen (hok c hc)) hch

/-- C10: the slug utility is idempotent: its output consists only of
lowercase ASCII word characters and single (non-adjacent) hyphens, all of
which `slugify` maps to themselves. -/
theorem slugify_idempotent (s : String) : slugify (slugify s) = slugify s := by
  obtain ⟨hok, hch⟩ := slugify_output_ok s
  exact slugify_fixed hok hch
